import Mathlib

/-!
Verification of the text-rendering and navigation engine of the
claude-history-reader terminal viewer.

Strings are modelled as `List Char`; each `Char` stands for one byte/rune unit
of the Go string (the program counts visible width per such unit).  Colored
output of the lipgloss styling library is modelled by the concrete SGR escape
sequences the styles produce on a color terminal.
-/

set_option maxHeartbeats 1600000
set_option linter.unusedVariables false

namespace CHR

/-- ASCII escape character (0x1b) that introduces every ANSI control sequence. -/
def escChar : Char := Char.ofNat 27

/-- Recognizes the final byte of a CSI sequence: an ASCII letter. -/
def isAnsiLetter (c : Char) : Bool :=
  decide (('A' ≤ c ∧ c ≤ 'Z') ∨ ('a' ≤ c ∧ c ≤ 'z'))

/-- Characters the StripAnsi regular expression allows between "ESC[" and the
final letter: digits and semicolons (the regex is `\x1b\[[0-9;]*[a-zA-Z]`). -/
def isStripMid (c : Char) : Bool :=
  c.isDigit || c == ';'

/-- Given the text following "ESC[", consume `[0-9;]*` and then a final letter,
returning the remainder of the string; `none` if the regex cannot match here. -/
def afterCSI : List Char → Option (List Char)
  | [] => none
  | c :: l =>
    if isAnsiLetter c then some l
    else if isStripMid c then afterCSI l
    else none

theorem afterCSI_length : ∀ {l r : List Char}, afterCSI l = some r → r.length < l.length := by
  intro l
  induction l with
  | nil => intro r h; simp [afterCSI] at h
  | cons c t ih =>
    intro r h
    simp only [afterCSI] at h
    by_cases hc : isAnsiLetter c
    · simp [hc] at h; simp [← h]
    · by_cases hm : isStripMid c
      · simp [hc, hm] at h
        exact Nat.lt_succ_of_lt (ih h)
      · simp [hc, hm] at h

/-- Model of StripAnsi (highlight.go): removes every substring matching the
regular expression ESC '[' [0-9;]* letter, scanning left to right. -/
def StripAnsi : List Char → List Char
  | [] => []
  | c :: l =>
    if c = escChar then
      match l with
      | d :: l2 =>
        if d = '[' then
          match h : afterCSI l2 with
          | some rest => StripAnsi rest
          | none => c :: StripAnsi (d :: l2)
        else c :: StripAnsi (d :: l2)
      | [] => [c]
    else c :: StripAnsi l
termination_by l => l.length
decreasing_by
  · have h2 := afterCSI_length h
    simp only [List.length_cons]
    omega
  · simp
  · simp
  · simp

/-- Visible width of a styled string: the number of units left after removing
all ANSI escape sequences (models lipgloss.Width on the strings the viewer
builds, whose visible characters are single-width). -/
def visibleWidth (s : List Char) : Nat :=
  (StripAnsi s).length

theorem stripAnsi_nil : StripAnsi [] = [] := by
  simp [StripAnsi]

theorem stripAnsi_cons_ne (c : Char) (l : List Char) (h : c ≠ escChar) :
    StripAnsi (c :: l) = c :: StripAnsi l := by
  rw [StripAnsi.eq_def]
  simp [h]

/-! ### Style constants

Concrete SGR sequences emitted by the lipgloss styles declared in highlight.go
(a foreground color N renders as ESC[38;5;Nm ... ESC[0m on a color terminal),
and the literal search-highlight / reset sequences written by
highlightSearchInLine. -/

/-- Color code for JSON keys (lipgloss color 81). -/
def keyCode : List Char := "\x1b[38;5;81m".toList

/-- Color code for JSON string values (lipgloss color 114). -/
def strCode : List Char := "\x1b[38;5;114m".toList

/-- Color code for JSON numbers (lipgloss color 141). -/
def numCode : List Char := "\x1b[38;5;141m".toList

/-- Color code for booleans and null (lipgloss color 208). -/
def boolCode : List Char := "\x1b[38;5;208m".toList

/-- Color code for braces and brackets (lipgloss color 245). -/
def braceCode : List Char := "\x1b[38;5;245m".toList

/-- Style reset sequence. -/
def resetSeq : List Char := "\x1b[0m".toList

/-- Search-highlight start sequence written literally by highlightSearchInLine
("Bold black on yellow"). -/
def hlSeq : List Char := "\x1b[1;30;48;5;226m".toList

/-- Wrapping of a token in a style, as lipgloss Style.Render does for the
simple foreground-color styles of the JSON highlighter. -/
def renderWith (code tok : List Char) : List Char :=
  code ++ tok ++ resetSeq

/-! ### getAnsiSequence and the search overlay (highlight.go) -/

/-- Scan the text following "ESC[" for the body of an ANSI sequence: digits,
semicolons and question marks may precede the final letter.  Returns the body
(including the final letter) together with the remainder; `none` when an
invalid character or the end of the string is reached first. -/
def scanCSI : List Char → Option (List Char × List Char)
  | [] => none
  | c :: l =>
    if isAnsiLetter c then some ([c], l)
    else if c.isDigit || c == ';' || c == '?' then
      match scanCSI l with
      | some (seq, rest) => some (c :: seq, rest)
      | none => none
    else none

/-- Model of getAnsiSequence: the ANSI escape sequence at the start of the
string, if any.  The source returns just the matched sequence and the caller
advances past its length; the model returns the sequence paired with the
remainder of the string, which is the same information. -/
def getAnsiSequence : List Char → Option (List Char × List Char)
  | c :: d :: l =>
    if c = escChar ∧ d = '[' then
      match scanCSI l with
      | some (seq, rest) => some (c :: d :: seq, rest)
      | none => none
    else none
  | _ => none

theorem scanCSI_parts : ∀ {l seq rest : List Char},
    scanCSI l = some (seq, rest) → seq ++ rest = l ∧ 0 < seq.length := by
  intro l
  induction l with
  | nil => intro seq rest h; simp [scanCSI] at h
  | cons c t ih =>
    intro seq rest h
    simp only [scanCSI] at h
    by_cases hc : isAnsiLetter c
    · simp [hc] at h
      obtain ⟨h1, h2⟩ := h
      simp [← h1, ← h2]
    · by_cases hm : c.isDigit || c == ';' || c == '?'
      · simp [hc, hm] at h
        match hs : scanCSI t with
        | some (seq2, rest2) =>
          rw [hs] at h
          simp at h
          obtain ⟨h1, h2⟩ := h
          obtain ⟨ih1, ih2⟩ := ih hs
          constructor
          · rw [← h1, ← h2]
            simp [ih1]
          · rw [← h1]; simp
        | none => rw [hs] at h; simp at h
      · simp [hc, hm] at h

theorem getAnsiSequence_parts : ∀ {l seq rest : List Char},
    getAnsiSequence l = some (seq, rest) →
    seq ++ rest = l ∧ rest.length + 2 < l.length + 1 := by
  intro l seq rest h
  match l with
  | [] => simp [getAnsiSequence] at h
  | [c] => simp [getAnsiSequence] at h
  | c :: d :: t =>
    simp only [getAnsiSequence] at h
    by_cases hc : c = escChar ∧ d = '['
    · simp [hc] at h
      match hs : scanCSI t with
      | some (seq2, rest2) =>
        rw [hs] at h
        simp at h
        obtain ⟨h1, h2⟩ := h
        obtain ⟨p1, p2⟩ := scanCSI_parts hs
        constructor
        · rw [← h1, ← h2]
          simp [hc.1, hc.2, p1]
        · rw [← h2]
          have : seq2.length + rest2.length = t.length := by
            rw [← p1]; simp
          simp only [List.length_cons]
          omega
      | none => rw [hs] at h; simp at h
    · simp [hc] at h

theorem getAnsiSequence_rest_lt {l seq rest : List Char}
    (h : getAnsiSequence l = some (seq, rest)) : rest.length < l.length := by
  have := (getAnsiSequence_parts h).2
  omega

/-- Model of extractVisibleText: the text of a line with all ANSI escape
sequences removed (the byte-position map the source also builds is discarded
by the source itself). -/
def extractVisibleText : List Char → List Char
  | [] => []
  | c :: l =>
    match h : getAnsiSequence (c :: l) with
    | some (_, rest) => extractVisibleText rest
    | none => c :: extractVisibleText l
termination_by l => l.length
decreasing_by
  · exact getAnsiSequence_rest_lt h
  · simp

/-- Model of strings.Index: the first position at which `q` occurs in `s`, or
`none` (the source's -1). -/
def goIndex : List Char → List Char → Option Nat
  | s, q =>
    match s with
    | [] => if q = [] then some 0 else none
    | _ :: t => if q.isPrefixOf s then some 0 else (goIndex t q).map (· + 1)

theorem goIndex_some_ne_nil {s q : List Char} {i : Nat}
    (hq : q ≠ []) (h : goIndex s q = some i) : s ≠ [] := by
  intro hs
  subst hs
  simp [goIndex, hq] at h

/-- Model of the match-collection loop of highlightSearchInLine: repeatedly
search forward for the query, record each hit position, and continue scanning
one visible character past the hit start. -/
def findMatches (vis q : List Char) (pos : Nat) : List Nat :=
  if hq : q = [] then []
  else
    match h : goIndex (vis.drop pos) q with
    | none => []
    | some idx => (pos + idx) :: findMatches vis q (pos + idx + 1)
termination_by vis.length - pos
decreasing_by
  · have hne : vis.drop pos ≠ [] := goIndex_some_ne_nil hq h
    have : pos < vis.length := by
      by_contra hp
      exact hne (List.drop_eq_nil_of_le (by omega))
    omega

/-- Model of the rebuild loop of highlightSearchInLine: re-walk the original
line copying escape sequences verbatim; before a plain character whose visible
index starts a recorded match emit the highlight sequence, and right after the
match's last character emit a reset.  State: visible index, index into the
match list, in-match flag, match-end position. -/
def rebuild (ms : List Nat) (qlen : Nat) :
    List Char → Nat → Nat → Bool → Nat → List Char
  | [], _, _, _, _ => []
  | c :: t, v, mi, im, me =>
    match h : getAnsiSequence (c :: t) with
    | some (seq, rest) => seq ++ rebuild ms qlen rest v mi im me
    | none =>
      let starts : Bool := ms.get? mi == some v
      let im2 := starts || im
      let me2 := if starts then v + qlen else me
      let pre := if starts then hlSeq else []
      if im2 ∧ v + 1 = me2 then
        pre ++ c :: (resetSeq ++ rebuild ms qlen t (v + 1) (mi + 1) false me2)
      else
        pre ++ c :: rebuild ms qlen t (v + 1) mi im2 me2
termination_by l _ _ _ _ => l.length
decreasing_by
  · exact getAnsiSequence_rest_lt h
  · simp
  · simp

/-- Model of highlightSearchInLine: highlight all case-insensitive matches of
the (already lowercased) query in one styled line. -/
def highlightSearchInLine (line qLower : List Char) : List Char :=
  if qLower = [] then line
  else
    let visible := extractVisibleText line
    let visibleLower := visible.map Char.toLower
    let ms := findMatches visibleLower qLower 0
    if ms = [] then line
    else rebuild ms qLower.length line 0 0 false 0

/-- Model of strings.Split on newline. -/
def splitNL : List Char → List (List Char)
  | [] => [[]]
  | c :: l =>
    if c = '\n' then [] :: splitNL l
    else
      match splitNL l with
      | [] => [[c]]
      | h :: t => (c :: h) :: t

/-- Model of strings.Join with newline separator. -/
def joinNL : List (List Char) → List Char
  | [] => []
  | [l] => l
  | l :: l2 :: ls => l ++ '\n' :: joinNL (l2 :: ls)

theorem splitNL_ne_nil (l : List Char) : splitNL l ≠ [] := by
  match l with
  | [] => simp [splitNL]
  | c :: t =>
    rw [splitNL]
    by_cases hc : c = '\n'
    · simp [hc]
    · simp only [hc, if_false]
      match h : splitNL t with
      | [] => simp
      | h2 :: t2 => simp

theorem joinNL_splitNL (l : List Char) : joinNL (splitNL l) = l := by
  induction l with
  | nil => simp [splitNL, joinNL]
  | cons c t ih =>
    rw [splitNL]
    by_cases hc : c = '\n'
    · simp only [hc, if_true]
      match h : splitNL t with
      | [] => exact absurd h (splitNL_ne_nil t)
      | h2 :: t2 =>
        rw [joinNL]
        rw [h] at ih
        simp [← ih, hc]
    · simp only [hc, if_false]
      match h : splitNL t with
      | [] => exact absurd h (splitNL_ne_nil t)
      | h2 :: t2 =>
        rw [h] at ih
        match t2 with
        | [] =>
          rw [joinNL] at ih ⊢
          simp [ih]
        | x :: t3 =>
          rw [joinNL] at ih ⊢
          simp only [List.cons_append]
          rw [ih]

/-- Model of HighlightSearch: lowercase the query, then highlight matches in
every line; unchanged input when the query is empty. -/
def HighlightSearch (content q : List Char) : List Char :=
  if q = [] then content
  else
    let qLower := q.map Char.toLower
    joinNL ((splitNL content).map (fun l => highlightSearchInLine l qLower))

/-! ### JSON syntax highlighter (highlight.go) -/

/-- Whitespace characters per Go's unicode.IsSpace (the Latin-1 range). -/
def goIsSpace (c : Char) : Bool :=
  c == ' ' || c == '\t' || c == '\n' || c == '\x0b' || c == '\x0c' ||
    c == '\r' || c == '\x85' || c == '\xa0'

/-- Characters of the greedy numeric-literal run: [-+0-9.eE]. -/
def isNumChar (c : Char) : Bool :=
  c == '-' || c == '+' || c == '.' || c == 'e' || c == 'E' || c.isDigit

/-- Scan for the closing quote of a JSON string: given the text after the
opening quote, consume characters (skipping backslash escapes) up to and
including the closing quote; returns the consumed part and the remainder. -/
def scanString : List Char → List Char × List Char
  | [] => ([], [])
  | c :: l =>
    if c = '"' then ([c], l)
    else if c = '\\' then
      match l with
      | [] => ([c], [])
      | d :: l2 =>
        let p := scanString l2
        (c :: d :: p.1, p.2)
    else
      let p := scanString l
      (c :: p.1, p.2)

theorem length_dropWhile_le (p : Char → Bool) (l : List Char) :
    (l.dropWhile p).length ≤ l.length := by
  have h := congrArg List.length (List.takeWhile_append_dropWhile p l)
  simp only [List.length_append] at h
  omega

theorem scanString_parts : ∀ (l : List Char),
    (scanString l).1 ++ (scanString l).2 = l ∧ (scanString l).2.length ≤ l.length := by
  intro l
  induction l using scanString.induct with
  | case1 => simp [scanString.eq_def]
  | case2 l => simp [scanString.eq_def]
  | case3 h => simp [scanString.eq_def]
  | case4 c l h ih =>
    obtain ⟨ih1, ih2⟩ := ih
    rw [scanString.eq_def]
    simp only [List.cons_append, List.length_cons, reduceIte]
    constructor
    · simp [ih1]
    · simpa using Nat.le_succ_of_le (Nat.le_succ_of_le ih2)
  | case5 c l hq hb ih =>
    obtain ⟨ih1, ih2⟩ := ih
    rw [scanString.eq_def]
    simp only [hq, if_false, hb, List.cons_append, List.length_cons]
    constructor
    · simp [ih1]
    · simpa using Nat.le_succ_of_le ih2

/-- Is the string token a key: the next non-whitespace character after the
closing quote is a colon. -/
def isKeyNext (rest : List Char) : Bool :=
  match rest.dropWhile (fun c => goIsSpace c) with
  | ':' :: _ => true
  | _ => false

/-- Model of the token-classification loop of highlightJSONLine: a single
left-to-right scan over the line, styling braces, strings (keys vs. values),
numeric literals and the keywords true/false/null, and passing whitespace,
colons, commas and unmatched characters through verbatim. -/
def highlightLine : List Char → List Char
  | [] => []
  | c :: l =>
    if c = ' ' ∨ c = '\t' then c :: highlightLine l
    else if c = '{' ∨ c = '}' ∨ c = '[' ∨ c = ']' then
      renderWith braceCode [c] ++ highlightLine l
    else if c = ':' ∨ c = ',' then c :: highlightLine l
    else if c = '"' then
      let p := scanString l
      let tok := '"' :: p.1
      if isKeyNext p.2 then renderWith keyCode tok ++ highlightLine p.2
      else renderWith strCode tok ++ highlightLine p.2
    else if c = '-' ∨ c.isDigit then
      renderWith numCode ((c :: l).takeWhile isNumChar) ++
        highlightLine ((c :: l).dropWhile isNumChar)
    else if c = 't' ∨ c = 'f' ∨ c = 'n' then
      if List.isPrefixOf "true".toList (c :: l) then
        renderWith boolCode "true".toList ++ highlightLine ((c :: l).drop 4)
      else if List.isPrefixOf "false".toList (c :: l) then
        renderWith boolCode "false".toList ++ highlightLine ((c :: l).drop 5)
      else if List.isPrefixOf "null".toList (c :: l) then
        renderWith boolCode "null".toList ++ highlightLine ((c :: l).drop 4)
      else c :: highlightLine l
    else c :: highlightLine l
termination_by l => l.length
decreasing_by
  · simp
  · simp
  · simp
  · have := (@scanString_parts l).2
    simp only [List.length_cons]
    omega
  · have := (@scanString_parts l).2
    simp only [List.length_cons]
    omega
  · have hd : isNumChar c = true := by
      rcases ‹c = '-' ∨ c.isDigit = true› with h | h
      · simp [isNumChar, h]
      · simp [isNumChar, h]
    simp only [List.dropWhile_cons, hd, if_true]
    have := length_dropWhile_le isNumChar l
    simp only [List.length_cons]
    omega
  · simp only [List.drop, List.length_cons, List.length_drop]
    omega
  · simp only [List.drop, List.length_cons, List.length_drop]
    omega
  · simp only [List.drop, List.length_cons, List.length_drop]
    omega
  · simp
  · simp

/-- Model of highlightJSONLine: whitespace-only lines pass through untouched,
otherwise the line is re-emitted token by token with styling. -/
def highlightJSONLine (line : List Char) : List Char :=
  if line.all goIsSpace then line else highlightLine line

/-- Model of HighlightJSON: highlight every newline-separated line. -/
def HighlightJSON (content : List Char) : List Char :=
  joinNL ((splitNL content).map highlightJSONLine)

/-! ### ANSI-aware truncate and pad (model.go) -/

/-- The lax escape-sequence scan used by truncateWithAnsi: after "ESC[" any
run of non-letters is consumed, then the terminating letter if the string has
not ended.  Returns the consumed part and the remainder. -/
def laxAnsiSplit : List Char → Option (List Char × List Char)
  | c :: d :: l =>
    if c = escChar ∧ d = '[' then
      let mid := l.takeWhile (fun x => !(isAnsiLetter x))
      match l.dropWhile (fun x => !(isAnsiLetter x)) with
      | le :: l2 => some (c :: d :: (mid ++ [le]), l2)
      | [] => some (c :: d :: mid, [])
    else none
  | _ => none

theorem laxAnsiSplit_rest_lt : ∀ {l seq rest : List Char},
    laxAnsiSplit l = some (seq, rest) → rest.length < l.length := by
  intro l seq rest h
  match l with
  | [] => simp [laxAnsiSplit] at h
  | [c] => simp [laxAnsiSplit] at h
  | c :: d :: t =>
    simp only [laxAnsiSplit] at h
    by_cases hc : c = escChar ∧ d = '['
    · simp only [hc, and_self, if_true] at h
      match hd : t.dropWhile (fun x => !(isAnsiLetter x)) with
      | le :: l2 =>
        rw [hd] at h
        simp at h
        have hlen : (t.dropWhile (fun x => !(isAnsiLetter x))).length ≤ t.length :=
          length_dropWhile_le _ t
        rw [hd] at hlen
        have hr : rest = l2 := h.2.symm
        subst hr
        simp only [List.length_cons] at hlen ⊢
        omega
      | [] =>
        rw [hd] at h
        simp at h
        have hr : rest = [] := h.2
        subst hr
        simp
    · simp [hc] at h

/-- Model of the copying loop of truncateWithAnsi: copy escape sequences
verbatim (found with the lax scan) and plain characters until the visible
budget is exhausted. -/
def truncLoop : List Char → Int → Int → List Char
  | [], _, _ => []
  | c :: t, vw, maxW =>
    if vw < maxW then
      match h : laxAnsiSplit (c :: t) with
      | some (seq, rest) => seq ++ truncLoop rest vw maxW
      | none => c :: truncLoop t (vw + 1) maxW
    else []
termination_by l _ _ => l.length
decreasing_by
  · exact laxAnsiSplit_rest_lt h
  · simp

/-- Model of truncateWithAnsi: truncate a styled string to a visible width,
copying escape sequences verbatim and appending a reset; empty output for a
non-positive width. -/
def truncateWithAnsi (s : List Char) (maxWidth : Int) : List Char :=
  if maxWidth ≤ 0 then [] else truncLoop s 0 maxWidth ++ resetSeq

/-- Model of padOrTruncate: right-pad with spaces up to the width, or truncate
when the string is visibly wider. -/
def padOrTruncate (s : List Char) (width : Int) : List Char :=
  let visible : Int := (visibleWidth s : Int)
  if visible > width then truncateWithAnsi s width
  else if visible < width then s ++ List.replicate (width - visible).toNat ' '
  else s

/-! ### Viewer navigation state machine (model.go)

The viewer-relevant fields of the Bubble Tea model and the key handler
handleViewerKeys, restricted to the keys that drive navigation.  The keys
that leave the viewer or toggle search mode (q, esc, slash, n, N, ctrl+c)
route to other screens and are outside this machine; `Key.other` stands for
any remaining key, which reaches the end of the key switch without matching
a motion.  Counts and cursor fields are Go ints, modelled as Int. -/

inductive ViewMode where
  | json
  | message
deriving DecidableEq

/-- Keys fed to the navigation model. -/
inductive Key where
  | digit (d : Fin 10)
  | j
  | down
  | k
  | up
  | ctrlD
  | ctrlU
  | g
  | shiftG
  | tab
  | other
deriving DecidableEq

/-- Navigation-relevant state of the Model.  lastG models the lastKey field,
which the viewer only ever sets to "g" or clears. -/
structure NavState where
  viewMode : ViewMode
  cursorLine : Int
  scrollOffset : Int
  messageIndex : Int
  messageScrollOffset : Int
  numBuffer : List (Fin 10)
  lastG : Bool
deriving DecidableEq

/-- Model of viewerHeight: the number of visible lines in the viewer pane. -/
def viewerHeight (height : Int) : Int := height - 5

/-- The effective view height used by ensureCursorVisible: the viewer height,
with a fallback of 10 for degenerate (non-positive) sizes. -/
def effViewHeight (height : Int) : Int :=
  if viewerHeight height ≤ 0 then 10 else viewerHeight height

/-- Model of ensureCursorVisible: adjust the scroll offset so the cursor lies
inside the window. -/
def ensureCursorVisible (height : Int) (s : NavState) : NavState :=
  let vh := effViewHeight height
  let s1 := if s.cursorLine < s.scrollOffset then {s with scrollOffset := s.cursorLine} else s
  if s1.cursorLine ≥ s1.scrollOffset + vh then
    {s1 with scrollOffset := s1.cursorLine - vh + 1}
  else s1

/-- Model of handleJSONNavigation: move the cursor by count*direction, clamp
into [0, lineCount-1] (upper clamp first), and keep the cursor visible. -/
def handleJSONNavigation (lineCount : Nat) (height : Int) (count direction : Int)
    (s : NavState) : NavState :=
  let c1 := s.cursorLine + count * direction
  let c2 := if c1 ≥ (lineCount : Int) then (lineCount : Int) - 1 else c1
  let c3 := if c2 < 0 then 0 else c2
  ensureCursorVisible height {s with cursorLine := c3}

/-- Model of handleMessageNavigation: move the message index by
count*direction, clamp into [0, msgCount-1], reset the in-message scroll;
no-op when there are no messages. -/
def handleMessageNavigation (msgCount : Nat) (count direction : Int)
    (s : NavState) : NavState :=
  if msgCount = 0 then s
  else
    let i1 := s.messageIndex + count * direction
    let i2 := if i1 ≥ (msgCount : Int) then (msgCount : Int) - 1 else i1
    let i3 := if i2 < 0 then 0 else i2
    {s with messageIndex := i3, messageScrollOffset := 0}

/-- Model of the repeat-count consumption: strconv.Atoi on the accumulated
digit buffer (which errors only on 64-bit overflow), used when positive,
else the default count 1. -/
def consumeCount (buf : List (Fin 10)) : Int :=
  if buf = [] then 1
  else
    let n : Nat := buf.foldl (fun a d => a * 10 + d.val) 0
    if 0 < n ∧ n ≤ 9223372036854775807 then (n : Int) else 1

/-- Clears the pending chord key, as the final statement of handleViewerKeys
does for every key other than "g". -/
def clearLastG (s : NavState) : NavState := {s with lastG := false}

/-- Model of handleViewerKeys for the navigation keys.  Tab is handled before
the digit buffer (so it preserves the buffer and pending chord); a digit
either fires goto-top ('0' on an empty buffer) or accumulates, returning
early; every other key first consumes the count buffer and, unless it is
"g", finally clears the pending chord flag. -/
def handleViewerKey (lineCount msgCount : Nat) (height : Int) (k : Key)
    (s : NavState) : NavState :=
  match k with
  | Key.tab =>
    {s with viewMode := if s.viewMode = ViewMode.json then ViewMode.message else ViewMode.json}
  | Key.digit d =>
    if d.val = 0 ∧ s.numBuffer = [] then
      if s.viewMode = ViewMode.json then
        ensureCursorVisible height {s with cursorLine := 0}
      else
        {s with messageIndex := 0, messageScrollOffset := 0}
    else {s with numBuffer := s.numBuffer ++ [d]}
  | Key.j =>
    let count := consumeCount s.numBuffer
    let s2 := {s with numBuffer := []}
    clearLastG (if s2.viewMode = ViewMode.json then
      handleJSONNavigation lineCount height count 1 s2
    else handleMessageNavigation msgCount count 1 s2)
  | Key.down =>
    let count := consumeCount s.numBuffer
    let s2 := {s with numBuffer := []}
    clearLastG (if s2.viewMode = ViewMode.json then
      handleJSONNavigation lineCount height count 1 s2
    else handleMessageNavigation msgCount count 1 s2)
  | Key.k =>
    let count := consumeCount s.numBuffer
    let s2 := {s with numBuffer := []}
    clearLastG (if s2.viewMode = ViewMode.json then
      handleJSONNavigation lineCount height count (-1) s2
    else handleMessageNavigation msgCount count (-1) s2)
  | Key.up =>
    let count := consumeCount s.numBuffer
    let s2 := {s with numBuffer := []}
    clearLastG (if s2.viewMode = ViewMode.json then
      handleJSONNavigation lineCount height count (-1) s2
    else handleMessageNavigation msgCount count (-1) s2)
  | Key.ctrlD =>
    let s2 := {s with numBuffer := []}
    let half := Int.tdiv (viewerHeight height) 2
    clearLastG (if s2.viewMode = ViewMode.json then
      handleJSONNavigation lineCount height half 1 s2
    else handleMessageNavigation msgCount half 1 s2)
  | Key.ctrlU =>
    let s2 := {s with numBuffer := []}
    let half := Int.tdiv (viewerHeight height) 2
    clearLastG (if s2.viewMode = ViewMode.json then
      handleJSONNavigation lineCount height half (-1) s2
    else handleMessageNavigation msgCount half (-1) s2)
  | Key.g =>
    let s2 := {s with numBuffer := []}
    if s2.lastG then
      if s2.viewMode = ViewMode.json then
        {s2 with cursorLine := 0, scrollOffset := 0, lastG := false}
      else
        {s2 with messageIndex := 0, messageScrollOffset := 0, lastG := false}
    else {s2 with lastG := true}
  | Key.shiftG =>
    let s2 := {s with numBuffer := []}
    clearLastG (if s2.viewMode = ViewMode.json then
      ensureCursorVisible height {s2 with cursorLine := (lineCount : Int) - 1}
    else {s2 with messageIndex := (msgCount : Int) - 1, messageScrollOffset := 0})
  | Key.other =>
    clearLastG {s with numBuffer := []}

/-- Runs a sequence of keys through the viewer key handler. -/
def runKeys (lineCount msgCount : Nat) (height : Int) (keys : List Key)
    (s : NavState) : NavState :=
  keys.foldl (fun st ky => handleViewerKey lineCount msgCount height ky st) s

/-- The viewer state right after opening a file: cursor and scroll reset, and
message mode active (the source starts in message mode). -/
def initViewer : NavState :=
  { viewMode := ViewMode.message
    cursorLine := 0
    scrollOffset := 0
    messageIndex := 0
    messageScrollOffset := 0
    numBuffer := []
    lastG := false }

/-! ### Message renderer (message.go) -/

/-- One content block of a message. -/
structure ContentBlock where
  type : List Char
  content : List Char
  name : List Char
deriving DecidableEq

/-- A parsed JSONL message, restricted to the fields the renderer reads
(timestamp, uuid and the raw decoded map play no part in rendering). -/
structure Message where
  type : List Char
  subtype : List Char
  content : List ContentBlock
  isMeta : Bool
deriving DecidableEq

/-- The recognized message types (the implementedTypes map). -/
def implementedTypes (t : List Char) : Bool :=
  t == "user".toList || t == "assistant".toList ||
    t == "system".toList || t == "summary".toList

/-- SGR code of the user badge style (bold, white on blue 27). -/
def userBadgeCode : List Char := "\x1b[1;38;5;15;48;5;27m".toList

/-- SGR code of the assistant badge style (bold, white on green 34). -/
def assistantBadgeCode : List Char := "\x1b[1;38;5;15;48;5;34m".toList

/-- SGR code of the system badge style (bold, black on yellow 220). -/
def systemBadgeCode : List Char := "\x1b[1;38;5;0;48;5;220m".toList

/-- SGR code of the summary badge style (bold, white on purple 99). -/
def summaryBadgeCode : List Char := "\x1b[1;38;5;15;48;5;99m".toList

/-- SGR code of the unknown-type badge style (bold, white on gray 240). -/
def unknownBadgeCode : List Char := "\x1b[1;38;5;15;48;5;240m".toList

/-- SGR code of the warning style (bold red 196). -/
def warningCode : List Char := "\x1b[1;38;5;196m".toList

/-- SGR code of the thinking style (italic gray 243). -/
def thinkingCode : List Char := "\x1b[3;38;5;243m".toList

/-- SGR code of the tool-use header style (bold cyan 44). -/
def toolUseHeaderCode : List Char := "\x1b[1;38;5;44m".toList

/-- SGR code of the tool-result header style (bold orange 214). -/
def toolResultHeaderCode : List Char := "\x1b[1;38;5;214m".toList

/-- SGR code of the meta-message style (gray 243). -/
def metaCode : List Char := "\x1b[38;5;243m".toList

/-- The warning glyph appended after the badge of unrecognized types. -/
def warnGlyph : Char := '⚠'

/-- Rendering by a plain (unpadded) lipgloss style. -/
def styleRender (code s : List Char) : List Char :=
  code ++ s ++ resetSeq

/-- Rendering by a badge style: lipgloss Padding(0,1) puts one space on each
side of the label inside the styled region. -/
def badgeRender (code label : List Char) : List Char :=
  code ++ ' ' :: (label ++ ' ' :: resetSeq)

/-- Model of renderBadge: style the type label (with optional subtype) by
message type; a user message with a tool_result block gets the two-part
user + tool_result badge; unrecognized types get the unknown badge. -/
def renderBadge (m : Message) : List Char :=
  let label :=
    if m.subtype ≠ [] then m.type ++ " (".toList ++ m.subtype ++ ")".toList
    else m.type
  if m.type = "user".toList then
    if m.content.any (fun b => b.type == "tool_result".toList) then
      badgeRender userBadgeCode "user".toList ++
        ' ' :: styleRender toolResultHeaderCode "tool_result".toList
    else badgeRender userBadgeCode label
  else if m.type = "assistant".toList then badgeRender assistantBadgeCode label
  else if m.type = "system".toList then badgeRender systemBadgeCode label
  else if m.type = "summary".toList then badgeRender summaryBadgeCode label
  else badgeRender unknownBadgeCode label

/-- Model of renderMarkdown: clamps the width to at least 20 and renders the
text via the external glamour markdown formatter, falling back to plain
word-wrapping.  Both formatters are external libraries (not repository
code) and no claim depends on their output, so the text itself is modelled
as passing through unchanged. -/
def renderMarkdown (content : List Char) (width : Int) : List Char :=
  content

/-- Model of the external wordwrap.String word-wrapper; as with
renderMarkdown, the wrapped text is modelled as passing through unchanged. -/
def wordwrapString (content : List Char) (width : Int) : List Char :=
  content

/-- Model of renderBlock: dispatch on the block type. -/
def renderBlock (b : ContentBlock) (width : Int) : List Char :=
  if b.type = "text".toList then renderMarkdown b.content width
  else if b.type = "thinking".toList then
    styleRender thinkingCode
      ("💭 Thinking:\n".toList ++ renderMarkdown b.content width)
  else if b.type = "tool_use".toList then
    styleRender toolUseHeaderCode ("🔧 ".toList ++ b.name) ++ '\n' :: b.content
  else if b.type = "tool_result".toList then
    styleRender toolResultHeaderCode "📤 Result".toList ++ '\n' :: b.content
  else if b.type = "plain".toList then wordwrapString b.content width
  else wordwrapString b.content width

/-- Joining of rendered blocks by a blank line (strings.Join with sep
"\n\n"). -/
def joinParts : List (List Char) → List Char
  | [] => []
  | [p] => p
  | p :: p2 :: ps => p ++ '\n' :: '\n' :: joinParts (p2 :: ps)

/-- Model of renderContent: render the blocks in order, dropping empty
renders, joined by blank lines. -/
def renderContent (m : Message) (width : Int) : List Char :=
  joinParts ((m.content.map (fun b => renderBlock b width)).filter (fun r => !(r == [])))

/-- Model of Message.Render: badge, then a warning glyph for unrecognized
types, then the rendered content on the following lines (wrapped in the
de-emphasized meta style when isMeta is set). -/
def Render (m : Message) (width : Int) : List Char :=
  let badge := renderBadge m
  let warn : List Char :=
    if implementedTypes m.type then [] else ' ' :: styleRender warningCode [warnGlyph]
  let contentWidth := if width - 4 < 20 then 20 else width - 4
  let content0 := renderContent m contentWidth
  let content := if m.isMeta then styleRender metaCode content0 else content0
  badge ++ warn ++ '\n' :: content

/-- Substring test (strings.Contains), via the first-occurrence search. -/
def containsSub (s sub : List Char) : Bool :=
  (goIndex s sub).isSome

/-- Number of positions at which the pattern occurs in the string. -/
def countOccur (p : List Char) : List Char → Nat
  | [] => 0
  | c :: t => (if p.isPrefixOf (c :: t) then 1 else 0) + countOccur p t

/-! ### Styled lines

A styled line is an interleaving of plain characters and complete SGR escape
sequences of the shape ESC '[' [0-9;]* letter — exactly what the highlighter
and the lipgloss styles emit.  The content-preservation properties of the
search overlay and of truncation are stated over styled lines. -/

/-- Decides whether a string is a well-formed styled line: plain characters
never contain a raw ESC, and every ESC opens a complete [0-9;]*-bodied escape
sequence. -/
def styledB : List Char → Bool
  | [] => true
  | c :: l =>
    if c = escChar then
      match l with
      | d :: l2 =>
        if d = '[' then
          match h : afterCSI l2 with
          | some rest => styledB rest
          | none => false
        else false
      | [] => false
    else styledB l
termination_by l => l.length
decreasing_by
  · have h2 := afterCSI_length h
    simp only [List.length_cons]
    omega
  · simp

theorem styledB_nil : styledB [] = true := by
  simp [styledB]

theorem styledB_cons_ne (c : Char) (l : List Char) (h : c ≠ escChar) :
    styledB (c :: l) = styledB l := by
  rw [styledB.eq_def]
  simp [h]

theorem styledB_seq (l2 rest : List Char) (h : afterCSI l2 = some rest) :
    styledB (escChar :: '[' :: l2) = styledB rest := by
  rw [styledB.eq_def]
  dsimp only
  rw [if_pos rfl, if_pos rfl]
  split
  · rename_i r heq
    rw [h] at heq
    injection heq with heq2
    rw [heq2]
  · rename_i heq
    rw [h] at heq
    cases heq

theorem stripAnsi_seq (l2 rest : List Char) (h : afterCSI l2 = some rest) :
    StripAnsi (escChar :: '[' :: l2) = StripAnsi rest := by
  rw [StripAnsi.eq_def]
  dsimp only
  rw [if_pos rfl, if_pos rfl]
  split
  · rename_i r heq
    rw [h] at heq
    injection heq with heq2
    rw [heq2]
  · rename_i heq
    rw [h] at heq
    cases heq

/-- Strong-induction principle for styled lines, following the structure of
styledB. -/
theorem styled_rec (P : List Char → Prop) (h0 : P [])
    (h1 : ∀ c l, c ≠ escChar → styledB l = true → P l → P (c :: l))
    (h2 : ∀ l2 rest, afterCSI l2 = some rest → styledB rest = true → P rest →
      P (escChar :: '[' :: l2)) :
    ∀ l, styledB l = true → P l := by
  have main : ∀ n (l : List Char), l.length ≤ n → styledB l = true → P l := by
    intro n
    induction n with
    | zero =>
      intro l hl hs
      match l with
      | [] => exact h0
      | c :: t => simp at hl
    | succ n ih =>
      intro l hl hs
      match l with
      | [] => exact h0
      | c :: t =>
        by_cases hc : c = escChar
        · subst hc
          rw [styledB.eq_def] at hs
          simp only [if_pos rfl] at hs
          match t with
          | [] => simp at hs
          | d :: l2 =>
            by_cases hd : d = '['
            · subst hd
              simp only [if_pos rfl] at hs
              match ha : afterCSI l2 with
              | some rest =>
                rw [ha] at hs
                have hrl := afterCSI_length ha
                simp only [List.length_cons] at hl
                have hrest : P rest := ih rest (by omega) hs
                exact h2 l2 rest ha hs hrest
              | none => rw [ha] at hs; simp at hs
            · simp only [hd, if_false] at hs
              simp at hs
        · rw [styledB_cons_ne c t hc] at hs
          simp only [List.length_cons] at hl
          exact h1 c t hc hs (ih t (by omega) hs)
  intro l
  exact main l.length l (le_refl _)

theorem afterCSI_append : ∀ {body r : List Char}, afterCSI body = some r →
    ∀ x, afterCSI (body ++ x) = some (r ++ x) := by
  intro body
  induction body with
  | nil => intro r h; simp [afterCSI] at h
  | cons c t ih =>
    intro r h x
    simp only [afterCSI] at h
    by_cases hc : isAnsiLetter c
    · simp only [hc, if_true] at h
      simp only [List.cons_append, afterCSI, hc, if_true]
      simp [← Option.some_inj.mp h]
    · by_cases hm : isStripMid c
      · simp only [hc, if_false, hm, if_true] at h
        simp only [List.cons_append, afterCSI, hc, if_false, hm, if_true]
        exact ih h x
      · simp [hc, hm] at h

/-- Stripping distributes over append when the left part is a styled line. -/
theorem strip_append_styled : ∀ (a : List Char), styledB a = true →
    ∀ b, StripAnsi (a ++ b) = StripAnsi a ++ StripAnsi b := by
  intro a ha
  refine styled_rec (fun a => ∀ b, StripAnsi (a ++ b) = StripAnsi a ++ StripAnsi b)
    ?_ ?_ ?_ a ha
  · intro b; simp [stripAnsi_nil]
  · intro c l hc hs ih b
    rw [List.cons_append, stripAnsi_cons_ne c (l ++ b) hc, stripAnsi_cons_ne c l hc]
    simp [ih b]
  · intro l2 rest hr hs ih b
    have h2 : afterCSI (l2 ++ b) = some (rest ++ b) := afterCSI_append hr b
    rw [List.cons_append, List.cons_append]
    rw [stripAnsi_seq (l2 ++ b) (rest ++ b) h2, stripAnsi_seq l2 rest hr]
    exact ih b

/-- Styled lines are closed under append. -/
theorem styled_append : ∀ (a : List Char), styledB a = true →
    ∀ b, styledB b = true → styledB (a ++ b) = true := by
  intro a ha
  refine styled_rec (fun a => ∀ b, styledB b = true → styledB (a ++ b) = true)
    ?_ ?_ ?_ a ha
  · intro b hb; simpa using hb
  · intro c l hc hs ih b hb
    rw [List.cons_append, styledB_cons_ne c (l ++ b) hc]
    exact ih b hb
  · intro l2 rest hr hs ih b hb
    have h2 : afterCSI (l2 ++ b) = some (rest ++ b) := afterCSI_append hr b
    rw [List.cons_append, List.cons_append, styledB_seq (l2 ++ b) (rest ++ b) h2]
    exact ih b hb

/-- Characters other than ESC pass through StripAnsi. -/
theorem strip_escFree : ∀ (a : List Char), (∀ c ∈ a, c ≠ escChar) →
    ∀ b, StripAnsi (a ++ b) = a ++ StripAnsi b := by
  intro a
  induction a with
  | nil => intro h b; simp
  | cons c t ih =>
    intro h b
    rw [List.cons_append, stripAnsi_cons_ne c (t ++ b) (h c (by simp))]
    rw [ih (fun x hx => h x (by simp [hx])) b]
    simp

theorem strip_escFree_self (a : List Char) (h : ∀ c ∈ a, c ≠ escChar) :
    StripAnsi a = a := by
  have := strip_escFree a h []
  simpa [stripAnsi_nil] using this

theorem escFree_styled (a : List Char) (h : ∀ c ∈ a, c ≠ escChar) :
    styledB a = true := by
  induction a with
  | nil => exact styledB_nil
  | cons c t ih =>
    rw [styledB_cons_ne c t (h c (by simp))]
    exact ih (fun x hx => h x (by simp [hx]))

theorem stripMid_not_letter {c : Char} (h : isStripMid c = true) :
    isAnsiLetter c = false := by
  simp only [isStripMid, Bool.or_eq_true, beq_iff_eq] at h
  rcases h with h | h
  · simp only [Char.isDigit, Bool.and_eq_true, decide_eq_true_eq] at h
    obtain ⟨h48, h57⟩ := h
    simp only [isAnsiLetter, decide_eq_false_iff_not]
    intro hl
    rcases hl with ⟨h1, h2⟩ | ⟨h1, h2⟩
    · rw [Char.le_def] at h1
      exact absurd (UInt32.le_trans h1 h57) (by decide)
    · rw [Char.le_def] at h1
      exact absurd (UInt32.le_trans h1 h57) (by decide)
  · subst h
    decide

/-- Decomposition of a successful afterCSI run: the consumed body, its
relation to the scanCSI scan used by getAnsiSequence, and stability of the
run under appending. -/
theorem afterCSI_analysis : ∀ {l r : List Char}, afterCSI l = some r →
    ∃ body, l = body ++ r ∧ scanCSI l = some (body, r) ∧
      ∀ z, afterCSI (body ++ z) = some z := by
  intro l
  induction l with
  | nil => intro r h; simp [afterCSI] at h
  | cons c t ih =>
    intro r h
    simp only [afterCSI] at h
    by_cases hc : isAnsiLetter c
    · simp only [hc, if_true, Option.some_inj] at h
      subst h
      refine ⟨[c], by simp, ?_, ?_⟩
      · simp [scanCSI, hc]
      · intro z
        simp [afterCSI, hc]
    · by_cases hm : isStripMid c
      · simp [hc, hm] at h
        obtain ⟨body, hb1, hb2, hb3⟩ := ih h
        have hdig : (c.isDigit || c == ';' || c == '?') = true := by
          simp only [isStripMid, Bool.or_eq_true] at hm
          rcases hm with hm | hm <;> simp [hm]
        refine ⟨c :: body, by simp [hb1], ?_, ?_⟩
        · rw [scanCSI.eq_def]
          simp [hc, hdig, hb2]
        · intro z
          simp only [List.cons_append, afterCSI]
          simp [hc, hm]
          exact hb3 z
      · simp [hc, hm] at h

theorem getAnsiSequence_none (c : Char) (t : List Char) (h : c ≠ escChar) :
    getAnsiSequence (c :: t) = none := by
  match t with
  | [] => simp [getAnsiSequence]
  | d :: t2 =>
    simp [getAnsiSequence, h]

theorem getAnsiSequence_of_afterCSI {l2 rest : List Char} (h : afterCSI l2 = some rest) :
    ∃ body, l2 = body ++ rest ∧ afterCSI body = some [] ∧
      getAnsiSequence (escChar :: '[' :: l2) = some (escChar :: '[' :: body, rest) := by
  obtain ⟨body, hb1, hb2, hb3⟩ := afterCSI_analysis h
  refine ⟨body, hb1, ?_, ?_⟩
  · simpa using hb3 []
  · simp [getAnsiSequence, hb2]

/-- Stripping an SGR sequence prefix (ESC '[' body with a complete body). -/
theorem strip_sgr_append {body : List Char} (hb : afterCSI body = some []) (x : List Char) :
    StripAnsi ((escChar :: '[' :: body) ++ x) = StripAnsi x := by
  have h2 : afterCSI (body ++ x) = some x := by
    obtain ⟨b2, hb1, _, hb3⟩ := afterCSI_analysis hb
    have : b2 = body := by simpa using hb1.symm
    subst this
    exact hb3 x
  rw [List.cons_append, List.cons_append, stripAnsi_seq _ _ h2]

/-- A styled line stays styled when an SGR sequence is prepended. -/
theorem styled_sgr_append {body : List Char} (hb : afterCSI body = some []) (x : List Char) :
    styledB ((escChar :: '[' :: body) ++ x) = styledB x := by
  have h2 : afterCSI (body ++ x) = some x := by
    obtain ⟨b2, hb1, _, hb3⟩ := afterCSI_analysis hb
    have : b2 = body := by simpa using hb1.symm
    subst this
    exact hb3 x
  rw [List.cons_append, List.cons_append, styledB_seq _ _ h2]

theorem hlSeq_decomp : hlSeq = escChar :: '[' :: "1;30;48;5;226m".toList := by
  decide

theorem resetSeq_decomp : resetSeq = escChar :: '[' :: "0m".toList := by
  decide

theorem strip_hlSeq (x : List Char) : StripAnsi (hlSeq ++ x) = StripAnsi x := by
  rw [hlSeq_decomp]
  exact strip_sgr_append (by decide) x

theorem strip_resetSeq (x : List Char) : StripAnsi (resetSeq ++ x) = StripAnsi x := by
  rw [resetSeq_decomp]
  exact strip_sgr_append (by decide) x

theorem strip_hlSeq_if (b : Bool) (x : List Char) :
    StripAnsi ((if b then hlSeq else []) ++ x) = StripAnsi x := by
  cases b
  · simp
  · simpa using strip_hlSeq x

theorem styled_hlSeq_append (x : List Char) : styledB (hlSeq ++ x) = styledB x := by
  rw [hlSeq_decomp]
  exact styled_sgr_append (by decide) x

theorem styled_resetSeq_append (x : List Char) : styledB (resetSeq ++ x) = styledB x := by
  rw [resetSeq_decomp]
  exact styled_sgr_append (by decide) x

/-- Content preservation of the rebuild loop: on a styled line, stripping the
rebuilt output yields the stripped input, for every loop state. -/
theorem strip_rebuild (ms : List Nat) (qlen : Nat) :
    ∀ l, styledB l = true → ∀ v mi im me,
      StripAnsi (rebuild ms qlen l v mi im me) = StripAnsi l := by
  intro l hl
  refine styled_rec
    (fun l => ∀ v mi im me, StripAnsi (rebuild ms qlen l v mi im me) = StripAnsi l)
    ?_ ?_ ?_ l hl
  · intro v mi im me
    rw [rebuild]
  · intro c t hc hst ih v mi im me
    rw [rebuild.eq_def]
    dsimp only
    split
    · rename_i seq rest heq
      rw [getAnsiSequence_none c t hc] at heq
      cases heq
    · rename_i heq
      rw [stripAnsi_cons_ne c t hc]
      split
      · rename_i hcond
        split
        · rw [strip_hlSeq, stripAnsi_cons_ne c _ hc, strip_resetSeq, ih]
        · rw [strip_hlSeq, stripAnsi_cons_ne c _ hc, ih]
      · rename_i hcond
        simp only [List.nil_append]
        split
        · rw [stripAnsi_cons_ne c _ hc, strip_resetSeq, ih]
        · rw [stripAnsi_cons_ne c _ hc, ih]
  · intro l2 rest hr hst ih v mi im me
    obtain ⟨body, hb1, hb2, hb3⟩ := getAnsiSequence_of_afterCSI hr
    rw [rebuild.eq_def]
    dsimp only
    split
    · rename_i seq2 rest2 heq
      rw [hb3] at heq
      injection heq with heq1
      cases heq1
      rw [strip_sgr_append hb2, ih, stripAnsi_seq _ _ hr]
    · rename_i heq
      rw [hb3] at heq
      cases heq

/-- The rebuild loop keeps lines styled: it copies styled pieces and inserts
only complete SGR sequences. -/
theorem rebuild_styled (ms : List Nat) (qlen : Nat) :
    ∀ l, styledB l = true → ∀ v mi im me,
      styledB (rebuild ms qlen l v mi im me) = true := by
  intro l hl
  refine styled_rec
    (fun l => ∀ v mi im me, styledB (rebuild ms qlen l v mi im me) = true)
    ?_ ?_ ?_ l hl
  · intro v mi im me
    rw [rebuild]
    exact styledB_nil
  · intro c t hc hst ih v mi im me
    rw [rebuild.eq_def]
    dsimp only
    split
    · rename_i seq rest heq
      rw [getAnsiSequence_none c t hc] at heq
      cases heq
    · rename_i heq
      split
      · rename_i hcond
        split
        · rw [styled_hlSeq_append, styledB_cons_ne c _ hc, styled_resetSeq_append]
          exact ih _ _ _ _
        · rw [styled_hlSeq_append, styledB_cons_ne c _ hc]
          exact ih _ _ _ _
      · rename_i hcond
        simp only [List.nil_append]
        split
        · rw [styledB_cons_ne c _ hc, styled_resetSeq_append]
          exact ih _ _ _ _
        · rw [styledB_cons_ne c _ hc]
          exact ih _ _ _ _
  · intro l2 rest hr hst ih v mi im me
    obtain ⟨body, hb1, hb2, hb3⟩ := getAnsiSequence_of_afterCSI hr
    rw [rebuild.eq_def]
    dsimp only
    split
    · rename_i seq2 rest2 heq
      rw [hb3] at heq
      injection heq with heq1
      cases heq1
      rw [styled_sgr_append hb2]
      exact ih _ _ _ _
    · rename_i heq
      rw [hb3] at heq
      cases heq

/-- The search overlay preserves stripped content on a single styled line. -/
theorem strip_highlightSearchInLine (line q : List Char) (h : styledB line = true) :
    StripAnsi (highlightSearchInLine line q) = StripAnsi line := by
  by_cases hq : q = []
  · simp [highlightSearchInLine, hq]
  · simp only [highlightSearchInLine, hq, if_false]
    by_cases hm : findMatches ((extractVisibleText line).map Char.toLower) q 0 = []
    · simp [hm]
    · simp only [hm, if_false]
      exact strip_rebuild _ _ line h 0 0 false 0

/-- The search overlay keeps a styled line styled. -/
theorem styled_highlightSearchInLine (line q : List Char) (h : styledB line = true) :
    styledB (highlightSearchInLine line q) = true := by
  by_cases hq : q = []
  · simpa [highlightSearchInLine, hq] using h
  · simp only [highlightSearchInLine, hq, if_false]
    by_cases hm : findMatches ((extractVisibleText line).map Char.toLower) q 0 = []
    · simpa [hm] using h
    · simp only [hm, if_false]
      exact rebuild_styled _ _ line h 0 0 false 0

/-- Strip-preserving, styledness-preserving per-line maps preserve the strip
of a newline join. -/
theorem strip_joinNL_map (f : List Char → List Char)
    (hstrip : ∀ l, styledB l = true → StripAnsi (f l) = StripAnsi l)
    (hstyled : ∀ l, styledB l = true → styledB (f l) = true) :
    ∀ lines : List (List Char), (∀ l ∈ lines, styledB l = true) →
      StripAnsi (joinNL (lines.map f)) = StripAnsi (joinNL lines) := by
  intro lines
  induction lines with
  | nil => intro h; simp [joinNL]
  | cons a rest ih =>
    intro h
    match rest with
    | [] =>
      simp only [List.map, joinNL]
      exact hstrip a (h a (by simp))
    | b :: rest2 =>
      have ha : styledB a = true := h a (by simp)
      simp only [List.map, joinNL]
      rw [strip_append_styled (f a) (hstyled a ha), strip_append_styled a ha]
      rw [hstrip a ha]
      rw [stripAnsi_cons_ne '\n' _ (by decide), stripAnsi_cons_ne '\n' _ (by decide)]
      have := ih (fun l hl => h l (by simp [hl]))
      simp only [List.map] at this
      rw [this]

/-! ### Content preservation of the JSON highlighter -/

theorem strip_keyCode (x : List Char) : StripAnsi (keyCode ++ x) = StripAnsi x := by
  rw [show keyCode = escChar :: '[' :: "38;5;81m".toList from by decide]
  exact strip_sgr_append (by decide) x

theorem strip_strCode (x : List Char) : StripAnsi (strCode ++ x) = StripAnsi x := by
  rw [show strCode = escChar :: '[' :: "38;5;114m".toList from by decide]
  exact strip_sgr_append (by decide) x

theorem strip_numCode (x : List Char) : StripAnsi (numCode ++ x) = StripAnsi x := by
  rw [show numCode = escChar :: '[' :: "38;5;141m".toList from by decide]
  exact strip_sgr_append (by decide) x

theorem strip_boolCode (x : List Char) : StripAnsi (boolCode ++ x) = StripAnsi x := by
  rw [show boolCode = escChar :: '[' :: "38;5;208m".toList from by decide]
  exact strip_sgr_append (by decide) x

theorem strip_braceCode (x : List Char) : StripAnsi (braceCode ++ x) = StripAnsi x := by
  rw [show braceCode = escChar :: '[' :: "38;5;245m".toList from by decide]
  exact strip_sgr_append (by decide) x

/-- Stripping one styled token emitted by the highlighter: the style code and
trailing reset disappear, the ESC-free token text stays. -/
theorem strip_token (code : List Char) (hcode : ∀ x, StripAnsi (code ++ x) = StripAnsi x)
    (tok rest b : List Char) (htok : ∀ c ∈ tok, c ≠ escChar)
    (ih : StripAnsi (highlightLine rest ++ b) = rest ++ StripAnsi b) :
    StripAnsi ((renderWith code tok ++ highlightLine rest) ++ b) =
      (tok ++ rest) ++ StripAnsi b := by
  simp only [renderWith, List.append_assoc]
  rw [hcode, strip_escFree tok htok, strip_resetSeq, ih]

/-- Generalized content preservation of the token highlighter: stripping the
highlighted line (with any continuation appended) returns the line itself. -/
theorem strip_highlightLine : ∀ l : List Char, (∀ c ∈ l, c ≠ escChar) →
    ∀ b, StripAnsi (highlightLine l ++ b) = l ++ StripAnsi b := by
  intro l0
  induction l0 using highlightLine.induct with
  | case1 =>
    intro h b
    simp [highlightLine]
  | case2 c l hg ih =>
    intro h b
    rw [highlightLine.eq_def]
    dsimp only
    rw [if_pos hg, List.cons_append,
      stripAnsi_cons_ne c _ (h c (by simp)),
      ih (fun x hx => h x (by simp [hx])) b]
    simp
  | case3 c l h1 hg ih =>
    intro h b
    rw [highlightLine.eq_def]
    dsimp only
    rw [if_neg h1, if_pos hg]
    have := strip_token braceCode strip_braceCode [c] l b
      (by intro x hx; simp at hx; rw [hx]; exact h c (by simp))
      (ih (fun x hx => h x (by simp [hx])) b)
    simpa using this
  | case4 c l h1 h2 hg ih =>
    intro h b
    rw [highlightLine.eq_def]
    dsimp only
    rw [if_neg h1, if_neg h2, if_pos hg, List.cons_append,
      stripAnsi_cons_ne c _ (h c (by simp)),
      ih (fun x hx => h x (by simp [hx])) b]
    simp
  | case5 l p hk h2 h3 h4 ih =>
    intro h b
    rw [highlightLine.eq_def]
    dsimp only
    rw [if_neg h2, if_neg h3, if_neg h4, if_pos rfl, if_pos hk]
    have hparts := scanString_parts l
    have htok : ∀ c ∈ '"' :: (scanString l).1, c ≠ escChar := by
      intro x hx
      simp only [List.mem_cons] at hx
      rcases hx with hx | hx
      · rw [hx]; exact h '"' (by simp)
      · exact h x (by
          simp only [List.mem_cons]
          right
          rw [← hparts.1]
          exact List.mem_append_left _ hx)
    have hrest : ∀ c ∈ (scanString l).2, c ≠ escChar := by
      intro x hx
      exact h x (by
        simp only [List.mem_cons]
        right
        rw [← hparts.1]
        exact List.mem_append_right _ hx)
    have hstep := strip_token keyCode strip_keyCode ('"' :: (scanString l).1)
      (scanString l).2 b htok (ih hrest b)
    rw [hstep]
    rw [show ('"' :: l : List Char) = '"' :: ((scanString l).1 ++ (scanString l).2) from by
      rw [hparts.1]]
    simp [List.append_assoc]
  | case6 l p hk h2 h3 h4 ih =>
    intro h b
    rw [highlightLine.eq_def]
    dsimp only
    rw [if_neg h2, if_neg h3, if_neg h4, if_pos rfl, if_neg hk]
    have hparts := scanString_parts l
    have htok : ∀ c ∈ '"' :: (scanString l).1, c ≠ escChar := by
      intro x hx
      simp only [List.mem_cons] at hx
      rcases hx with hx | hx
      · rw [hx]; exact h '"' (by simp)
      · exact h x (by
          simp only [List.mem_cons]
          right
          rw [← hparts.1]
          exact List.mem_append_left _ hx)
    have hrest : ∀ c ∈ (scanString l).2, c ≠ escChar := by
      intro x hx
      exact h x (by
        simp only [List.mem_cons]
        right
        rw [← hparts.1]
        exact List.mem_append_right _ hx)
    have hstep := strip_token strCode strip_strCode ('"' :: (scanString l).1)
      (scanString l).2 b htok (ih hrest b)
    rw [hstep]
    rw [show ('"' :: l : List Char) = '"' :: ((scanString l).1 ++ (scanString l).2) from by
      rw [hparts.1]]
    simp [List.append_assoc]
  | case7 c l h1 h2 h3 h4 hg ih =>
    intro h b
    rw [highlightLine.eq_def]
    dsimp only
    rw [if_neg h1, if_neg h2, if_neg h3, if_neg h4, if_pos hg]
    have hsplit : (c :: l).takeWhile isNumChar ++ (c :: l).dropWhile isNumChar = c :: l :=
      List.takeWhile_append_dropWhile isNumChar (c :: l)
    have htok : ∀ x ∈ (c :: l).takeWhile isNumChar, x ≠ escChar := by
      intro x hx
      exact h x ((List.takeWhile_sublist isNumChar).subset hx)
    have hrest : ∀ x ∈ (c :: l).dropWhile isNumChar, x ≠ escChar := by
      intro x hx
      exact h x ((List.dropWhile_sublist isNumChar).subset hx)
    have hstep := strip_token numCode strip_numCode ((c :: l).takeWhile isNumChar)
      ((c :: l).dropWhile isNumChar) b htok (ih hrest b)
    rw [hstep, hsplit]
  | case8 c l h1 h2 h3 h4 h5 hg hpre ih =>
    intro h b
    rw [highlightLine.eq_def]
    dsimp only
    rw [if_neg h1, if_neg h2, if_neg h3, if_neg h4, if_neg h5, if_pos hg, if_pos hpre]
    obtain ⟨r, hr⟩ := List.isPrefixOf_iff_prefix.mp hpre
    have hdrop : (c :: l).drop 4 = r := by
      rw [← hr, show (4 : Nat) = ("true".toList).length from by decide, List.drop_left]
    have hrest : ∀ x ∈ (c :: l).drop 4, x ≠ escChar := by
      intro x hx
      exact h x (List.drop_subset 4 (c :: l) hx)
    have hstep := strip_token boolCode strip_boolCode "true".toList ((c :: l).drop 4) b
      (by decide) (ih hrest b)
    rw [hstep, hdrop, ← hr]
  | case9 c l h1 h2 h3 h4 h5 hg hp1 hpre ih =>
    intro h b
    rw [highlightLine.eq_def]
    dsimp only
    rw [if_neg h1, if_neg h2, if_neg h3, if_neg h4, if_neg h5, if_pos hg, if_neg hp1,
      if_pos hpre]
    obtain ⟨r, hr⟩ := List.isPrefixOf_iff_prefix.mp hpre
    have hdrop : (c :: l).drop 5 = r := by
      rw [← hr, show (5 : Nat) = ("false".toList).length from by decide, List.drop_left]
    have hrest : ∀ x ∈ (c :: l).drop 5, x ≠ escChar := by
      intro x hx
      exact h x (List.drop_subset 5 (c :: l) hx)
    have hstep := strip_token boolCode strip_boolCode "false".toList ((c :: l).drop 5) b
      (by decide) (ih hrest b)
    rw [hstep, hdrop, ← hr]
  | case10 c l h1 h2 h3 h4 h5 hg hp1 hp2 hpre ih =>
    intro h b
    rw [highlightLine.eq_def]
    dsimp only
    rw [if_neg h1, if_neg h2, if_neg h3, if_neg h4, if_neg h5, if_pos hg, if_neg hp1,
      if_neg hp2, if_pos hpre]
    obtain ⟨r, hr⟩ := List.isPrefixOf_iff_prefix.mp hpre
    have hdrop : (c :: l).drop 4 = r := by
      rw [← hr, show (4 : Nat) = ("null".toList).length from by decide, List.drop_left]
    have hrest : ∀ x ∈ (c :: l).drop 4, x ≠ escChar := by
      intro x hx
      exact h x (List.drop_subset 4 (c :: l) hx)
    have hstep := strip_token boolCode strip_boolCode "null".toList ((c :: l).drop 4) b
      (by decide) (ih hrest b)
    rw [hstep, hdrop, ← hr]
  | case11 c l h1 h2 h3 h4 h5 hg hp1 hp2 hp3 ih =>
    intro h b
    rw [highlightLine.eq_def]
    dsimp only
    rw [if_neg h1, if_neg h2, if_neg h3, if_neg h4, if_neg h5, if_pos hg, if_neg hp1,
      if_neg hp2, if_neg hp3, List.cons_append,
      stripAnsi_cons_ne c _ (h c (by simp)),
      ih (fun x hx => h x (by simp [hx])) b]
    simp
  | case12 c l h1 h2 h3 h4 h5 h6 ih =>
    intro h b
    rw [highlightLine.eq_def]
    dsimp only
    rw [if_neg h1, if_neg h2, if_neg h3, if_neg h4, if_neg h5, if_neg h6, List.cons_append,
      stripAnsi_cons_ne c _ (h c (by simp)),
      ih (fun x hx => h x (by simp [hx])) b]
    simp

/-- Per-line content preservation of highlightJSONLine, with continuation. -/
theorem strip_highlightJSONLine_append (l : List Char) (h : ∀ c ∈ l, c ≠ escChar)
    (b : List Char) : StripAnsi (highlightJSONLine l ++ b) = l ++ StripAnsi b := by
  rw [highlightJSONLine]
  split
  · exact strip_escFree l h b
  · exact strip_highlightLine l h b

/-- Every character of every line produced by splitNL comes from the split
string. -/
theorem splitNL_chars : ∀ (content : List Char), ∀ l ∈ splitNL content,
    ∀ c ∈ l, c ∈ content := by
  intro content
  induction content with
  | nil =>
    intro l hl c hc
    simp [splitNL] at hl
    subst hl
    simp at hc
  | cons a t ih =>
    intro l hl c hc
    rw [splitNL] at hl
    by_cases ha : a = '\n'
    · simp only [ha, if_true, List.mem_cons] at hl
      rcases hl with hl | hl
      · subst hl; simp at hc
      · simp [ih l hl c hc]
    · simp only [ha, if_false] at hl
      match hs : splitNL t with
      | [] => exact absurd hs (splitNL_ne_nil t)
      | h2 :: t2 =>
        rw [hs] at hl
        simp only [List.mem_cons] at hl
        rcases hl with hl | hl
        · subst hl
          simp only [List.mem_cons] at hc
          rcases hc with hc | hc
          · simp [hc]
          · have : c ∈ t := ih h2 (by simp [hs]) c hc
            simp [this]
        · have : c ∈ t := ih l (by simp [hs, hl]) c hc
          simp [this]

/-- Stripping the highlighted join of ESC-free lines returns their join. -/
theorem strip_joinNL_highlight : ∀ lines : List (List Char),
    (∀ l ∈ lines, ∀ c ∈ l, c ≠ escChar) →
    StripAnsi (joinNL (lines.map highlightJSONLine)) = joinNL lines := by
  intro lines
  induction lines with
  | nil =>
    intro h
    simp [joinNL, stripAnsi_nil]
  | cons a rest ih =>
    intro h
    match rest with
    | [] =>
      simp only [List.map, joinNL]
      have := strip_highlightJSONLine_append a (h a (by simp)) []
      simpa [stripAnsi_nil] using this
    | b2 :: rest2 =>
      simp only [List.map, joinNL]
      rw [strip_highlightJSONLine_append a (h a (by simp))]
      rw [stripAnsi_cons_ne '\n' _ (by decide)]
      have := ih (fun l hl => h l (by simp [hl]))
      simp only [List.map] at this
      rw [this]

/-! ### Visible width of truncation and padding -/

theorem isStripMid_not_letter_bang {c : Char} (h : isStripMid c = true) :
    (!(isAnsiLetter c)) = true := by
  simp [stripMid_not_letter h]

/-- Decomposition of a complete SGR body into its middle characters and final
letter. -/
theorem afterCSI_nil_decomp : ∀ {body : List Char}, afterCSI body = some [] →
    ∃ mid le, body = mid ++ [le] ∧ (∀ x ∈ mid, isStripMid x = true) ∧
      isAnsiLetter le = true := by
  intro body
  induction body with
  | nil => intro hb2; simp [afterCSI] at hb2
  | cons c t ihb =>
    intro hb2
    simp only [afterCSI] at hb2
    by_cases hc : isAnsiLetter c
    · simp only [hc, if_true, Option.some_inj] at hb2
      subst hb2
      exact ⟨[], c, by simp, by simp, hc⟩
    · by_cases hm : isStripMid c
      · simp [hc, hm] at hb2
        obtain ⟨mid, le, he1, he2, he3⟩ := ihb hb2
        refine ⟨c :: mid, le, by simp [he1], ?_, he3⟩
        intro x hx
        simp only [List.mem_cons] at hx
        rcases hx with hx | hx
        · rw [hx]; exact hm
        · exact he2 x hx
      · simp [hc, hm] at hb2

/-- takeWhile/dropWhile of the non-letter run across an SGR body. -/
theorem takeDrop_mid : ∀ (mid : List Char), (∀ x ∈ mid, isStripMid x = true) →
    ∀ (le : Char), isAnsiLetter le = true → ∀ (rest : List Char),
    (mid ++ le :: rest).takeWhile (fun x => !(isAnsiLetter x)) = mid ∧
    (mid ++ le :: rest).dropWhile (fun x => !(isAnsiLetter x)) = le :: rest := by
  intro mid
  induction mid with
  | nil =>
    intro he2 le he3 rest
    constructor
    · simp [List.takeWhile_cons, he3]
    · simp [List.dropWhile_cons, he3]
  | cons m mt ihm =>
    intro he2 le he3 rest
    have hm : isStripMid m = true := he2 m (by simp)
    have hml := isStripMid_not_letter_bang hm
    obtain ⟨iht, ihd⟩ := ihm (fun x hx => he2 x (by simp [hx])) le he3 rest
    constructor
    · simp only [List.cons_append, List.takeWhile_cons, hml, if_true]
      rw [iht]
    · simp only [List.cons_append, List.dropWhile_cons, hml, if_true]
      rw [ihd]

/-- The lax sequence scan of truncateWithAnsi agrees with the strict grammar
on a well-formed SGR sequence. -/
theorem laxAnsiSplit_of_afterCSI {l2 rest : List Char} (h : afterCSI l2 = some rest) :
    ∃ body, l2 = body ++ rest ∧ afterCSI body = some [] ∧
      laxAnsiSplit (escChar :: '[' :: l2) = some (escChar :: '[' :: body, rest) := by
  obtain ⟨body, hb1, hb2s, hb3⟩ := afterCSI_analysis h
  have hb2 : afterCSI body = some [] := by simpa using hb3 []
  refine ⟨body, hb1, hb2, ?_⟩
  obtain ⟨mid, le, he1, he2, he3⟩ := afterCSI_nil_decomp hb2
  subst he1
  subst hb1
  rw [laxAnsiSplit]
  rw [if_pos ⟨rfl, rfl⟩]
  have hshape : (mid ++ [le]) ++ rest = mid ++ le :: rest := by simp
  rw [hshape]
  obtain ⟨iht, ihd⟩ := takeDrop_mid mid he2 le he3 rest
  rw [ihd]
  dsimp only
  rw [iht]

theorem laxAnsiSplit_none (c : Char) (t : List Char) (h : c ≠ escChar) :
    laxAnsiSplit (c :: t) = none := by
  match t with
  | [] => simp [laxAnsiSplit]
  | d :: t2 => simp [laxAnsiSplit, h]

/-- Stripping the truncation loop's output takes exactly the remaining visible
budget from the stripped input. -/
theorem truncLoop_strip (maxW : Int) : ∀ l, styledB l = true → ∀ vw : Int,
    StripAnsi (truncLoop l vw maxW) = (StripAnsi l).take (maxW - vw).toNat := by
  intro l hl
  refine styled_rec
    (fun l => ∀ vw : Int, StripAnsi (truncLoop l vw maxW) =
      (StripAnsi l).take (maxW - vw).toNat) ?_ ?_ ?_ l hl
  · intro vw
    rw [truncLoop]
    simp [stripAnsi_nil]
  · intro c t hc hst ih vw
    rw [truncLoop.eq_def]
    dsimp only
    rw [stripAnsi_cons_ne c t hc]
    by_cases hvw : vw < maxW
    · rw [if_pos hvw]
      split
      · rename_i seq rest heq
        rw [laxAnsiSplit_none c t hc] at heq
        cases heq
      · rename_i heq
        rw [stripAnsi_cons_ne c _ hc, ih (vw + 1)]
        have hn : (maxW - vw).toNat = (maxW - (vw + 1)).toNat + 1 := by omega
        rw [hn, List.take_succ_cons]
    · rw [if_neg hvw]
      have hn : (maxW - vw).toNat = 0 := by omega
      rw [hn, List.take_zero, stripAnsi_nil]
  · intro l2 rest hr hst ih vw
    obtain ⟨body, hb1, hb2, hb3⟩ := laxAnsiSplit_of_afterCSI hr
    rw [truncLoop.eq_def]
    dsimp only
    rw [stripAnsi_seq l2 rest hr]
    by_cases hvw : vw < maxW
    · rw [if_pos hvw]
      split
      · rename_i seq2 rest2 heq
        rw [hb3] at heq
        injection heq with heq1
        cases heq1
        rw [strip_sgr_append hb2, ih vw]
      · rename_i heq
        rw [hb3] at heq
        cases heq
    · rw [if_neg hvw]
      have hn : (maxW - vw).toNat = 0 := by omega
      rw [hn, List.take_zero, stripAnsi_nil]

/-- The truncation loop keeps lines styled. -/
theorem truncLoop_styled (maxW : Int) : ∀ l, styledB l = true → ∀ vw : Int,
    styledB (truncLoop l vw maxW) = true := by
  intro l hl
  refine styled_rec
    (fun l => ∀ vw : Int, styledB (truncLoop l vw maxW) = true) ?_ ?_ ?_ l hl
  · intro vw
    rw [truncLoop]
    exact styledB_nil
  · intro c t hc hst ih vw
    rw [truncLoop.eq_def]
    dsimp only
    by_cases hvw : vw < maxW
    · rw [if_pos hvw]
      split
      · rename_i seq rest heq
        rw [laxAnsiSplit_none c t hc] at heq
        cases heq
      · rename_i heq
        rw [styledB_cons_ne c _ hc]
        exact ih (vw + 1)
    · rw [if_neg hvw]
      exact styledB_nil
  · intro l2 rest hr hst ih vw
    obtain ⟨body, hb1, hb2, hb3⟩ := laxAnsiSplit_of_afterCSI hr
    rw [truncLoop.eq_def]
    dsimp only
    by_cases hvw : vw < maxW
    · rw [if_pos hvw]
      split
      · rename_i seq2 rest2 heq
        rw [hb3] at heq
        injection heq with heq1
        cases heq1
        rw [styled_sgr_append hb2]
        exact ih vw
      · rename_i heq
        rw [hb3] at heq
        cases heq
    · rw [if_neg hvw]
      exact styledB_nil

theorem styled_resetSeq : styledB resetSeq = true := by
  have := styled_resetSeq_append []
  simpa [styledB_nil] using this

theorem strip_resetSeq_self : StripAnsi resetSeq = [] := by
  have := strip_resetSeq []
  simpa [stripAnsi_nil] using this

/-- Visible content of a truncated styled line: the width-bounded prefix of
the visible content of the input. -/
theorem strip_truncateWithAnsi (s : List Char) (hs : styledB s = true) (maxW : Int) :
    StripAnsi (truncateWithAnsi s maxW) =
      if maxW ≤ 0 then [] else (StripAnsi s).take maxW.toNat := by
  rw [truncateWithAnsi]
  by_cases h0 : maxW ≤ 0
  · rw [if_pos h0, if_pos h0, stripAnsi_nil]
  · rw [if_neg h0, if_neg h0]
    rw [strip_append_styled _ (truncLoop_styled maxW s hs 0)]
    rw [strip_resetSeq_self, truncLoop_strip maxW s hs 0]
    simp

theorem truncateWithAnsi_styled (s : List Char) (hs : styledB s = true) (maxW : Int) :
    styledB (truncateWithAnsi s maxW) = true := by
  rw [truncateWithAnsi]
  by_cases h0 : maxW ≤ 0
  · rw [if_pos h0]
    exact styledB_nil
  · rw [if_neg h0]
    exact styled_append _ (truncLoop_styled maxW s hs 0) _ styled_resetSeq

/-! ### Properties of the match scan -/

theorem findMatches_q_nil (vis : List Char) (pos : Nat) :
    findMatches vis [] pos = [] := by
  rw [findMatches.eq_def]
  simp

theorem findMatches_none {vis q : List Char} {pos : Nat} (hq : q ≠ [])
    (h : goIndex (vis.drop pos) q = none) : findMatches vis q pos = [] := by
  rw [findMatches.eq_def]
  rw [dif_neg hq]
  split
  · rfl
  · rename_i idx heq
    rw [h] at heq
    cases heq

theorem findMatches_some {vis q : List Char} {pos idx : Nat} (hq : q ≠ [])
    (h : goIndex (vis.drop pos) q = some idx) :
    findMatches vis q pos = (pos + idx) :: findMatches vis q (pos + idx + 1) := by
  rw [findMatches.eq_def]
  rw [dif_neg hq]
  split
  · rename_i heq
    rw [h] at heq
    cases heq
  · rename_i idx2 heq
    rw [h] at heq
    injection heq with h2
    rw [h2]

theorem goIndex_isPrefixOf : ∀ {s q : List Char} {i : Nat},
    goIndex s q = some i → q.isPrefixOf (s.drop i) = true := by
  intro s
  induction s with
  | nil =>
    intro q i h
    rw [goIndex] at h
    by_cases hq : q = []
    · subst hq
      simp at h
      subst h
      simp [List.isPrefixOf]
    · simp [hq] at h
  | cons c t ih =>
    intro q i h
    rw [goIndex] at h
    by_cases hp : q.isPrefixOf (c :: t)
    · simp only [hp, if_true, Option.some_inj] at h
      subst h
      exact hp
    · simp only [hp, if_false] at h
      match hg : goIndex t q with
      | none => rw [hg] at h; simp at h
      | some j =>
        rw [hg] at h
        simp at h
        subst h
        simpa using ih hg

theorem findMatches_ge (vis q : List Char) : ∀ pos, ∀ x ∈ findMatches vis q pos, pos ≤ x := by
  intro pos
  induction pos using findMatches.induct vis q with
  | case1 pos hq =>
    subst hq
    rw [findMatches_q_nil]
    simp
  | case2 pos hq h =>
    rw [findMatches_none hq h]
    simp
  | case3 pos hq idx h ih =>
    rw [findMatches_some hq h]
    intro x hx
    simp only [List.mem_cons] at hx
    rcases hx with hx | hx
    · omega
    · have := ih x hx
      omega

/-- The recorded hit positions are strictly increasing: matches may be
adjacent but their recorded starts never repeat or go backwards. -/
theorem findMatches_chain (vis q : List Char) :
    ∀ pos, List.Chain' (· < ·) (findMatches vis q pos) := by
  intro pos
  induction pos using findMatches.induct vis q with
  | case1 pos hq =>
    subst hq
    rw [findMatches_q_nil]
    simp
  | case2 pos hq h =>
    rw [findMatches_none hq h]
    simp
  | case3 pos hq idx h ih =>
    rw [findMatches_some hq h]
    rw [List.chain'_cons']
    constructor
    · intro y hy
      have hmem := List.mem_of_mem_head? hy
      have := findMatches_ge vis q (pos + idx + 1) y hmem
      omega
    · exact ih

/-- Every recorded hit position is a real occurrence of the query. -/
theorem findMatches_occurrence (vis q : List Char) :
    ∀ pos, ∀ x ∈ findMatches vis q pos, q.isPrefixOf (vis.drop x) = true := by
  intro pos
  induction pos using findMatches.induct vis q with
  | case1 pos hq =>
    subst hq
    rw [findMatches_q_nil]
    simp
  | case2 pos hq h =>
    rw [findMatches_none hq h]
    simp
  | case3 pos hq idx h ih =>
    rw [findMatches_some hq h]
    intro x hx
    simp only [List.mem_cons] at hx
    rcases hx with hx | hx
    · subst hx
      have h2 := goIndex_isPrefixOf h
      rw [List.drop_drop] at h2
      simpa [Nat.add_comm] using h2
    · exact ih x hx

/-! ### Navigation invariants -/

/-- The navigation invariant: the cursor stays inside the line buffer (when
there are lines), the cursor stays inside the scroll window, and the message
index stays inside the message list (when there are messages). -/
def navInv (lineCount msgCount : Nat) (height : Int) (s : NavState) : Prop :=
  (0 < lineCount → 0 ≤ s.cursorLine ∧ s.cursorLine < (lineCount : Int)) ∧
  (effViewHeight height ≤ (lineCount : Int) →
    s.scrollOffset ≤ s.cursorLine ∧
      s.cursorLine ≤ s.scrollOffset + effViewHeight height - 1) ∧
  (0 < msgCount → 0 ≤ s.messageIndex ∧ s.messageIndex < (msgCount : Int))

theorem effViewHeight_pos (h : Int) : 1 ≤ effViewHeight h := by
  rw [effViewHeight, viewerHeight]
  split <;> omega

theorem ensure_fields (h : Int) (s : NavState) :
    (ensureCursorVisible h s).cursorLine = s.cursorLine ∧
    (ensureCursorVisible h s).messageIndex = s.messageIndex ∧
    (ensureCursorVisible h s).messageScrollOffset = s.messageScrollOffset ∧
    (ensureCursorVisible h s).numBuffer = s.numBuffer ∧
    (ensureCursorVisible h s).lastG = s.lastG ∧
    (ensureCursorVisible h s).viewMode = s.viewMode := by
  rw [ensureCursorVisible]
  split <;> split <;> simp

theorem ensure_window (h : Int) (s : NavState) :
    (ensureCursorVisible h s).scrollOffset ≤ (ensureCursorVisible h s).cursorLine ∧
    (ensureCursorVisible h s).cursorLine ≤
      (ensureCursorVisible h s).scrollOffset + effViewHeight h - 1 := by
  have hvh := effViewHeight_pos h
  rw [ensureCursorVisible]
  split <;> split <;> simp_all <;> omega

theorem handleJSONNavigation_inv (lc mc : Nat) (h : Int) (count dir : Int) (s : NavState)
    (hinv : navInv lc mc h s) :
    navInv lc mc h (handleJSONNavigation lc h count dir s) := by
  obtain ⟨h1, h2, h3⟩ := hinv
  rw [handleJSONNavigation]
  set c1 := s.cursorLine + count * dir with hc1
  set c2 := if c1 ≥ (lc : Int) then (lc : Int) - 1 else c1 with hc2
  set c3 := if c2 < 0 then 0 else c2 with hc3
  have hfields := ensure_fields h {s with cursorLine := c3}
  have hwin := ensure_window h {s with cursorLine := c3}
  refine ⟨?_, fun _ => hwin, ?_⟩
  · intro hlc
    rw [hfields.1]
    simp only []
    rw [hc3, hc2]
    split <;> split <;> omega
  · intro hmc
    rw [hfields.2.1]
    exact h3 hmc

theorem handleMessageNavigation_inv (lc mc : Nat) (h : Int) (count dir : Int) (s : NavState)
    (hinv : navInv lc mc h s) :
    navInv lc mc h (handleMessageNavigation mc count dir s) := by
  obtain ⟨h1, h2, h3⟩ := hinv
  rw [handleMessageNavigation]
  by_cases hz : mc = 0
  · rw [if_pos hz]
    exact ⟨h1, h2, h3⟩
  · rw [if_neg hz]
    dsimp only
    refine ⟨h1, h2, ?_⟩
    intro hmc
    simp only []
    split <;> split <;> omega

theorem clearLastG_inv (lc mc : Nat) (h : Int) (s : NavState)
    (hinv : navInv lc mc h s) : navInv lc mc h (clearLastG s) := by
  obtain ⟨h1, h2, h3⟩ := hinv
  exact ⟨h1, h2, h3⟩

/-- Single-key preservation of the navigation invariant. -/
theorem handleViewerKey_inv (lc mc : Nat) (h : Int) (k : Key) (s : NavState)
    (hinv : navInv lc mc h s) :
    navInv lc mc h (handleViewerKey lc mc h k s) := by
  obtain ⟨h1, h2, h3⟩ := hinv
  have hvh := effViewHeight_pos h
  match k with
  | Key.tab =>
    rw [handleViewerKey]
    exact ⟨h1, h2, h3⟩
  | Key.digit d =>
    rw [handleViewerKey]
    by_cases hd : d.val = 0 ∧ s.numBuffer = []
    · rw [if_pos hd]
      by_cases hm : s.viewMode = ViewMode.json
      · rw [if_pos hm]
        have hfields := ensure_fields h {s with cursorLine := 0}
        have hwin := ensure_window h {s with cursorLine := 0}
        refine ⟨?_, fun _ => hwin, ?_⟩
        · intro hlc
          rw [hfields.1]
          simp only []
          constructor <;> omega
        · intro hmc
          rw [hfields.2.1]
          exact h3 hmc
      · rw [if_neg hm]
        refine ⟨h1, h2, ?_⟩
        intro hmc
        simp only []
        constructor <;> omega
    · rw [if_neg hd]
      exact ⟨h1, h2, h3⟩
  | Key.j =>
    rw [handleViewerKey]
    dsimp only
    split
    · exact clearLastG_inv _ _ _ _ (handleJSONNavigation_inv lc mc h _ _ _ ⟨h1, h2, h3⟩)
    · exact clearLastG_inv _ _ _ _ (handleMessageNavigation_inv lc mc h _ _ _ ⟨h1, h2, h3⟩)
  | Key.down =>
    rw [handleViewerKey]
    dsimp only
    split
    · exact clearLastG_inv _ _ _ _ (handleJSONNavigation_inv lc mc h _ _ _ ⟨h1, h2, h3⟩)
    · exact clearLastG_inv _ _ _ _ (handleMessageNavigation_inv lc mc h _ _ _ ⟨h1, h2, h3⟩)
  | Key.k =>
    rw [handleViewerKey]
    dsimp only
    split
    · exact clearLastG_inv _ _ _ _ (handleJSONNavigation_inv lc mc h _ _ _ ⟨h1, h2, h3⟩)
    · exact clearLastG_inv _ _ _ _ (handleMessageNavigation_inv lc mc h _ _ _ ⟨h1, h2, h3⟩)
  | Key.up =>
    rw [handleViewerKey]
    dsimp only
    split
    · exact clearLastG_inv _ _ _ _ (handleJSONNavigation_inv lc mc h _ _ _ ⟨h1, h2, h3⟩)
    · exact clearLastG_inv _ _ _ _ (handleMessageNavigation_inv lc mc h _ _ _ ⟨h1, h2, h3⟩)
  | Key.ctrlD =>
    rw [handleViewerKey]
    dsimp only
    split
    · exact clearLastG_inv _ _ _ _ (handleJSONNavigation_inv lc mc h _ _ _ ⟨h1, h2, h3⟩)
    · exact clearLastG_inv _ _ _ _ (handleMessageNavigation_inv lc mc h _ _ _ ⟨h1, h2, h3⟩)
  | Key.ctrlU =>
    rw [handleViewerKey]
    dsimp only
    split
    · exact clearLastG_inv _ _ _ _ (handleJSONNavigation_inv lc mc h _ _ _ ⟨h1, h2, h3⟩)
    · exact clearLastG_inv _ _ _ _ (handleMessageNavigation_inv lc mc h _ _ _ ⟨h1, h2, h3⟩)
  | Key.g =>
    rw [handleViewerKey]
    dsimp only
    by_cases hg : s.lastG
    · rw [if_pos (by simpa using hg)]
      by_cases hm : s.viewMode = ViewMode.json
      · rw [if_pos (by simpa using hm)]
        refine ⟨?_, ?_, ?_⟩
        · intro hlc
          simp only []
          constructor <;> omega
        · intro hlc
          simp only []
          omega
        · intro hmc
          simp only []
          exact h3 hmc
      · rw [if_neg (by simpa using hm)]
        refine ⟨h1, h2, ?_⟩
        intro hmc
        simp only []
        constructor <;> omega
    · rw [if_neg (by simpa using hg)]
      exact ⟨h1, h2, h3⟩
  | Key.shiftG =>
    rw [handleViewerKey]
    dsimp only
    split
    · rename_i hm
      refine clearLastG_inv _ _ _ _ ?_
      have hfields := ensure_fields h
        {s with numBuffer := [], cursorLine := (lc : Int) - 1}
      have hwin := ensure_window h
        {s with numBuffer := [], cursorLine := (lc : Int) - 1}
      refine ⟨?_, fun _ => hwin, ?_⟩
      · intro hlc
        rw [hfields.1]
        simp only []
        constructor <;> omega
      · intro hmc
        rw [hfields.2.1]
        exact h3 hmc
    · refine clearLastG_inv _ _ _ _ ?_
      refine ⟨h1, h2, ?_⟩
      intro hmc
      simp only []
      constructor <;> omega
  | Key.other =>
    rw [handleViewerKey]
    exact ⟨h1, h2, h3⟩

theorem runKeys_inv (lc mc : Nat) (h : Int) :
    ∀ (keys : List Key) (s : NavState), navInv lc mc h s →
      navInv lc mc h (runKeys lc mc h keys s) := by
  intro keys
  induction keys with
  | nil => intro s hs; exact hs
  | cons ky rest ih =>
    intro s hs
    simp only [runKeys, List.foldl_cons] at ih ⊢
    exact ih _ (handleViewerKey_inv lc mc h ky s hs)

/-! ### Substring lemmas for the renderer -/

theorem containsSub_here {s sub : List Char} (h : sub.isPrefixOf s = true) :
    containsSub s sub = true := by
  match s with
  | [] =>
    have hs : sub = [] := by
      match sub with
      | [] => rfl
      | c :: t => simp [List.isPrefixOf] at h
    rw [containsSub, goIndex.eq_def]
    simp [hs]
  | c :: t =>
    rw [containsSub, goIndex.eq_def]
    simp [h]

theorem containsSub_cons {t sub : List Char} (c : Char) (h : containsSub t sub = true) :
    containsSub (c :: t) sub = true := by
  rw [containsSub, goIndex]
  by_cases hp : sub.isPrefixOf (c :: t)
  · simp [hp]
  · simp only [hp, Bool.false_eq_true, if_false]
    rw [containsSub] at h
    simpa using h

theorem containsSub_append_left (a : List Char) {s sub : List Char}
    (h : containsSub s sub = true) : containsSub (a ++ s) sub = true := by
  induction a with
  | nil => simpa using h
  | cons c t ih =>
    rw [List.cons_append]
    exact containsSub_cons c ih

theorem containsSub_single_iff (s : List Char) (c : Char) :
    containsSub s [c] = true ↔ c ∈ s := by
  induction s with
  | nil => simp [containsSub, goIndex]
  | cons a t ih =>
    rw [containsSub, goIndex]
    by_cases hp : List.isPrefixOf [c] (a :: t)
    · have hac : c = a := by
        simp [List.isPrefixOf] at hp
        exact hp
      simp [hp, hac]
    · have hne : c ≠ a := by
        intro he
        apply hp
        simp [List.isPrefixOf, he]
      simp only [hp, Bool.false_eq_true, if_false]
      rw [containsSub] at ih
      simp only [List.mem_cons]
      constructor
      · intro hs
        right
        apply ih.mp
        simpa using hs
      · intro hs
        rcases hs with hs | hs
        · exact absurd hs hne
        · simpa using ih.mpr hs

theorem mem_joinParts : ∀ (ps : List (List Char)) (c : Char), c ∈ joinParts ps →
    (∃ p ∈ ps, c ∈ p) ∨ c = '\n' := by
  intro ps
  induction ps with
  | nil =>
    intro c hc
    simp [joinParts] at hc
  | cons p rest ih =>
    intro c hc
    match rest with
    | [] =>
      rw [joinParts] at hc
      exact Or.inl ⟨p, by simp, hc⟩
    | p2 :: rest2 =>
      rw [joinParts] at hc
      simp only [List.mem_append, List.mem_cons] at hc
      rcases hc with hc | hc | hc | hc
      · exact Or.inl ⟨p, by simp, hc⟩
      · exact Or.inr hc
      · exact Or.inr hc
      · rcases ih c hc with ⟨q, hq1, hq2⟩ | hnl
        · exact Or.inl ⟨q, by simp [hq1], hq2⟩
        · exact Or.inr hnl

theorem initViewer_inv (lc mc : Nat) (h : Int) : navInv lc mc h initViewer := by
  have hvh := effViewHeight_pos h
  refine ⟨?_, ?_, ?_⟩
  · intro hlc
    simp [initViewer]
    omega
  · intro hlc
    simp [initViewer]
    omega
  · intro hmc
    simp [initViewer]
    omega

/-! ## The claims -/

/-- C1: for every input string of pretty-printed JSON lines (JSON text never
contains a raw ESC byte), stripping all ANSI escape sequences from the token
highlighter's output yields exactly the input — syntax highlighting never
alters visible content. -/
theorem c1_highlight_strip_identity (content : List Char)
    (h : ∀ c ∈ content, c ≠ escChar) :
    StripAnsi (HighlightJSON content) = content := by
  rw [HighlightJSON]
  rw [strip_joinNL_highlight (splitNL content)
    (fun l hl c hc => h c (splitNL_chars content l hl c hc))]
  exact joinNL_splitNL content

/-- Witness for C1 at a concrete pretty-printed JSON line. -/
theorem c1_highlight_strip_identity_witness :
    (∀ c ∈ "    \"key\": \"value\",".toList, c ≠ escChar) ∧
    StripAnsi (HighlightJSON "    \"key\": \"value\",".toList) =
      "    \"key\": \"value\",".toList :=
  ⟨by decide, c1_highlight_strip_identity _ (by decide)⟩

/-- C2: the search overlay preserves visible content — for every styled
content (all lines are interleavings of plain characters and complete SGR
sequences, as the highlighter emits) and every query, stripping escape
sequences from the overlay's output equals stripping them from the input:
the overlay only inserts highlight-start and reset sequences, copying every
escape sequence and plain character of the input verbatim. -/
theorem c2_search_overlay_strip (content q : List Char)
    (h : ∀ l ∈ splitNL content, styledB l = true) :
    StripAnsi (HighlightSearch content q) = StripAnsi content := by
  by_cases hq : q = []
  · rw [HighlightSearch, if_pos hq]
  · rw [HighlightSearch, if_neg hq]
    dsimp only
    rw [strip_joinNL_map (fun l => highlightSearchInLine l (q.map Char.toLower))
      (fun l hl => strip_highlightSearchInLine l _ hl)
      (fun l hl => styled_highlightSearchInLine l _ hl)
      (splitNL content) h]
    rw [joinNL_splitNL]

/-- Witness for C2 at a concrete styled line with a real escape sequence. -/
theorem c2_search_overlay_strip_witness :
    (∀ l ∈ splitNL "\x1b[38;5;81mkey\x1b[0m: value".toList, styledB l = true) ∧
    StripAnsi (HighlightSearch "\x1b[38;5;81mkey\x1b[0m: value".toList "value".toList) =
      StripAnsi "\x1b[38;5;81mkey\x1b[0m: value".toList := by
  have hsty : ∀ l ∈ splitNL "\x1b[38;5;81mkey\x1b[0m: value".toList, styledB l = true := by
    intro l hl
    simp [splitNL] at hl
    subst hl
    simp [styledB, afterCSI, isStripMid, isAnsiLetter, escChar]
  exact ⟨hsty, c2_search_overlay_strip _ _ hsty⟩

/-- C3: the search overlay finds case-insensitive occurrences by repeated
forward scan advancing one visible character past each hit start (the
recorded hit positions are strictly increasing genuine occurrences), and on
"key: value value" with query "value" the output consists of exactly two
non-overlapping highlighted spans — exactly two highlight-start sequences,
each closed by a reset before the next begins. -/
theorem c3_search_matches_nonoverlapping :
    (∀ vis q : List Char, List.Chain' (· < ·) (findMatches vis q 0)) ∧
    (∀ vis q : List Char, ∀ i ∈ findMatches vis q 0,
      q.isPrefixOf (vis.drop i) = true) ∧
    highlightSearchInLine "key: value value".toList "value".toList =
      "key: ".toList ++ hlSeq ++ "value".toList ++ resetSeq ++
        " ".toList ++ hlSeq ++ "value".toList ++ resetSeq ∧
    countOccur hlSeq
      (highlightSearchInLine "key: value value".toList "value".toList) = 2 := by
  have heq : highlightSearchInLine "key: value value".toList "value".toList =
      "key: ".toList ++ hlSeq ++ "value".toList ++ resetSeq ++
        " ".toList ++ hlSeq ++ "value".toList ++ resetSeq := by
    simp [highlightSearchInLine, extractVisibleText, getAnsiSequence, findMatches, goIndex,
      rebuild, hlSeq, resetSeq, List.isPrefixOf, Char.toLower]
  refine ⟨fun vis q => findMatches_chain vis q 0,
    fun vis q => findMatches_occurrence vis q 0, heq, ?_⟩
  rw [heq]
  decide

/-- Witness for C3: the hit list of the concrete example is [5, 11], strictly
increasing, and position 5 is a genuine occurrence. -/
theorem c3_search_matches_nonoverlapping_witness :
    (5 ∈ findMatches "key: value value".toList "value".toList 0) ∧
    "value".toList.isPrefixOf ("key: value value".toList.drop 5) = true := by
  have hmem : 5 ∈ findMatches "key: value value".toList "value".toList 0 := by
    simp [findMatches, goIndex, List.isPrefixOf]
  exact ⟨hmem,
    c3_search_matches_nonoverlapping.2.1 "key: value value".toList "value".toList 5 hmem⟩

/-- C4: after any sequence of viewer keys applied from the initial viewer
state, the navigation invariants hold — 0 ≤ cursorLine < lineCount whenever
lineCount > 0, scrollOffset ≤ cursorLine ≤ scrollOffset + viewHeight - 1
whenever lineCount ≥ viewHeight (the effective view height), and
0 ≤ messageIndex < messageCount whenever messageCount > 0. -/
theorem c4_navigation_invariants (lc mc : Nat) (h : Int) (keys : List Key) :
    navInv lc mc h (runKeys lc mc h keys initViewer) :=
  runKeys_inv lc mc h keys initViewer (initViewer_inv lc mc h)

/-- Witness for C4 at a concrete key sequence and geometry. -/
theorem c4_navigation_invariants_witness :
    navInv 50 3 20 (runKeys 50 3 20
      [Key.digit 1, Key.digit 0, Key.j, Key.g, Key.g, Key.shiftG, Key.ctrlD]
      initViewer) :=
  c4_navigation_invariants 50 3 20 _

/-- C5 counterexample: at the degenerate width -1 the claimed equation
visibleWidth (padOrTruncate (truncateWithAnsi L W) W) = W fails — the output
is empty, of visible width 0, not -1; truncateWithAnsi clamps non-positive
widths to empty output rather than to a positive minimum width. -/
theorem c5_counterexample :
    ¬ ((visibleWidth (padOrTruncate (truncateWithAnsi [] (-1)) (-1)) : Int) = -1) := by
  have h1 : truncateWithAnsi [] (-1) = [] := by
    rw [truncateWithAnsi]
    simp
  rw [h1]
  have h2 : padOrTruncate [] (-1) = [] := by
    rw [padOrTruncate]
    rw [visibleWidth, stripAnsi_nil]
    simp [h1]
  rw [h2]
  rw [visibleWidth, stripAnsi_nil]
  decide

/-- C5 (amended): for every styled line L and every non-negative width W,
truncating to W and then padding to W yields visible width exactly W;
degenerate widths are clamped — truncateWithAnsi returns empty output for
any non-positive width, so the equation holds from width 0 upward. -/
theorem c5_pad_truncate_width (L : List Char) (W : Int)
    (hL : styledB L = true) (hW : 0 ≤ W) :
    (visibleWidth (padOrTruncate (truncateWithAnsi L W) W) : Int) = W := by
  by_cases h0 : W = 0
  · subst h0
    have h1 : truncateWithAnsi L 0 = [] := by
      rw [truncateWithAnsi]
      simp
    rw [h1]
    have h2 : padOrTruncate [] 0 = [] := by
      rw [padOrTruncate]
      rw [visibleWidth, stripAnsi_nil]
      simp
    rw [h2, visibleWidth, stripAnsi_nil]
    decide
  · have hpos : 0 < W := by omega
    have hT := strip_truncateWithAnsi L hL W
    rw [if_neg (by omega : ¬ W ≤ 0)] at hT
    have hTsty := truncateWithAnsi_styled L hL W
    have hTlen : visibleWidth (truncateWithAnsi L W) =
        min W.toNat (StripAnsi L).length := by
      rw [visibleWidth, hT, List.length_take]
    have hWnat : ((W.toNat : Int)) = W := Int.toNat_of_nonneg hW
    have hTle : (visibleWidth (truncateWithAnsi L W) : Int) ≤ W := by
      rw [hTlen]
      have : min W.toNat (StripAnsi L).length ≤ W.toNat := Nat.min_le_left _ _
      omega
    rw [padOrTruncate]
    rw [if_neg (by omega : ¬ (visibleWidth (truncateWithAnsi L W) : Int) > W)]
    by_cases hlt : (visibleWidth (truncateWithAnsi L W) : Int) < W
    · rw [if_pos hlt]
      have hrep : ∀ c ∈ List.replicate
          (W - (visibleWidth (truncateWithAnsi L W) : Int)).toNat ' ', c ≠ escChar := by
        intro c hc
        rw [List.eq_of_mem_replicate hc]
        decide
      rw [visibleWidth, strip_append_styled _ hTsty, strip_escFree_self _ hrep]
      rw [List.length_append, List.length_replicate]
      rw [← visibleWidth]
      omega
    · rw [if_neg hlt]
      omega

/-- Witness for C5 (amended) at a concrete styled line and width. -/
theorem c5_pad_truncate_width_witness :
    styledB "\x1b[38;5;81mab".toList = true ∧ (0 : Int) ≤ 5 ∧
    (visibleWidth (padOrTruncate (truncateWithAnsi "\x1b[38;5;81mab".toList 5) 5) : Int) = 5 := by
  have hsty : styledB "\x1b[38;5;81mab".toList = true := by
    simp [styledB, afterCSI, isStripMid, isAnsiLetter, escChar]
  exact ⟨hsty, by decide, c5_pad_truncate_width _ _ hsty (by decide)⟩

/-- C6: digit keystrokes accumulate a decimal repeat-count buffer ('0' with
an empty buffer instead fires goto-top), the next motion key consumes the
buffer as its repeat count (default 1) and clears it, and any other key
clears the buffer without firing a motion; consequently, from cursorLine 0
in a 50-line buffer, pressing 1, 0, j leaves cursorLine at 10 with the
buffer cleared. -/
theorem c6_repeat_count (lc mc : Nat) (h : Int) :
    (∀ (s : NavState) (d : Fin 10), ¬(d.val = 0 ∧ s.numBuffer = []) →
      handleViewerKey lc mc h (Key.digit d) s = {s with numBuffer := s.numBuffer ++ [d]}) ∧
    (∀ s : NavState, s.numBuffer = [] → s.viewMode = ViewMode.json →
      handleViewerKey lc mc h (Key.digit 0) s =
        ensureCursorVisible h {s with cursorLine := 0}) ∧
    (∀ s : NavState, handleViewerKey lc mc h Key.other s =
      {s with numBuffer := [], lastG := false}) ∧
    (∀ height : Int,
      (runKeys 50 mc height [Key.digit 1, Key.digit 0, Key.j]
        {initViewer with viewMode := ViewMode.json}).cursorLine = 10 ∧
      (runKeys 50 mc height [Key.digit 1, Key.digit 0, Key.j]
        {initViewer with viewMode := ViewMode.json}).numBuffer = []) := by
  refine ⟨?_, ?_, ?_, ?_⟩
  · intro s d hd
    rw [handleViewerKey]
    rw [if_neg hd]
  · intro s hbuf hmode
    rw [handleViewerKey]
    rw [if_pos ⟨by decide, hbuf⟩, if_pos hmode]
  · intro s
    rw [handleViewerKey, clearLastG]
  · intro height
    have hstart : ({initViewer with viewMode := ViewMode.json} : NavState) =
        ⟨ViewMode.json, 0, 0, 0, 0, [], false⟩ := rfl
    simp only [runKeys, List.foldl_cons, List.foldl_nil, hstart]
    have hs1 : handleViewerKey 50 mc height (Key.digit 1)
        ⟨ViewMode.json, 0, 0, 0, 0, [], false⟩ =
        ⟨ViewMode.json, 0, 0, 0, 0, [1], false⟩ := by
      rw [handleViewerKey]
      rw [if_neg (by simp)]
      simp
    have hs2 : handleViewerKey 50 mc height (Key.digit 0)
        ⟨ViewMode.json, 0, 0, 0, 0, [1], false⟩ =
        ⟨ViewMode.json, 0, 0, 0, 0, [1, 0], false⟩ := by
      rw [handleViewerKey]
      rw [if_neg (by simp)]
      simp
    rw [hs1, hs2, handleViewerKey]
    have hcount : consumeCount [1, 0] = 10 := by decide
    dsimp only
    rw [if_pos rfl, hcount, handleJSONNavigation]
    have hclamp : (if (if (0 : Int) + 10 * 1 ≥ ((50 : Nat) : Int) then ((50 : Nat) : Int) - 1
        else (0 : Int) + 10 * 1) < 0 then (0 : Int)
        else if (0 : Int) + 10 * 1 ≥ ((50 : Nat) : Int) then ((50 : Nat) : Int) - 1
        else (0 : Int) + 10 * 1) = 10 := by
      norm_num
    dsimp only
    rw [hclamp]
    constructor
    · have hcl : ∀ x : NavState, (clearLastG x).cursorLine = x.cursorLine := by
        intro x
        rw [clearLastG]
      rw [hcl, (ensure_fields height _).1]
    · have hnb : ∀ x : NavState, (clearLastG x).numBuffer = x.numBuffer := by
        intro x
        rw [clearLastG]
      rw [hnb, (ensure_fields height _).2.2.2.1]

/-- Witness for C6: the digit-accumulation equation at a concrete state, and
the concrete run 1, 0, j ending at cursorLine 10. -/
theorem c6_repeat_count_witness :
    handleViewerKey 50 3 20 (Key.digit 7) ⟨ViewMode.json, 4, 0, 0, 0, [], false⟩ =
      ⟨ViewMode.json, 4, 0, 0, 0, [7], false⟩ ∧
    (runKeys 50 3 20 [Key.digit 1, Key.digit 0, Key.j]
      {initViewer with viewMode := ViewMode.json}).cursorLine = 10 := by
  constructor
  · have := (c6_repeat_count 50 3 20).1 ⟨ViewMode.json, 4, 0, 0, 0, [], false⟩ 7 (by decide)
    rw [this]
    simp
  · exact ((c6_repeat_count 50 3 20).2.2.2 20).1

/-- C7: the two-key chord is a state machine — pressing g arms a pending
flag (and otherwise changes only the count buffer, which the key consumes),
an immediate second g fires go-to-top so that from any cursor position g, g
sets cursorLine (and scrollOffset) to 0, and a lone g followed by a non-g
key clears the pending flag silently with no motion: cursor, scroll and
message position are exactly as before the two keystrokes. -/
theorem c7_chord_gg (lc mc : Nat) (h : Int) :
    (∀ s : NavState, s.viewMode = ViewMode.json →
      (handleViewerKey lc mc h Key.g (handleViewerKey lc mc h Key.g s)).cursorLine = 0 ∧
      (handleViewerKey lc mc h Key.g (handleViewerKey lc mc h Key.g s)).scrollOffset = 0) ∧
    (∀ s : NavState, s.lastG = false →
      handleViewerKey lc mc h Key.g s = {s with numBuffer := [], lastG := true}) ∧
    (∀ s : NavState, s.lastG = false →
      handleViewerKey lc mc h Key.other (handleViewerKey lc mc h Key.g s) =
        {s with numBuffer := [], lastG := false}) := by
  have harm : ∀ s : NavState, s.lastG = false →
      handleViewerKey lc mc h Key.g s = {s with numBuffer := [], lastG := true} := by
    intro s hg
    rw [handleViewerKey]
    dsimp only
    rw [if_neg (by simp [hg])]
  have hfire : ∀ s : NavState, s.lastG = true → s.viewMode = ViewMode.json →
      handleViewerKey lc mc h Key.g s =
        {s with numBuffer := [], cursorLine := 0, scrollOffset := 0, lastG := false} := by
    intro s hg hm
    rw [handleViewerKey]
    dsimp only
    rw [if_pos (by simp [hg]), if_pos (by simp [hm])]
  refine ⟨?_, harm, ?_⟩
  · intro s hm
    by_cases hg : s.lastG
    · rw [hfire s hg hm]
      have h2 := harm {s with numBuffer := [], cursorLine := 0, scrollOffset := 0, lastG := false}
        (by simp)
      rw [h2]
      exact ⟨rfl, rfl⟩
    · rw [harm s (by simpa using hg)]
      have h2 := hfire {s with numBuffer := [], lastG := true} (by simp) (by simpa using hm)
      rw [h2]
      exact ⟨rfl, rfl⟩
  · intro s hg
    rw [harm s hg]
    rw [handleViewerKey, clearLastG]

/-- Witness for C7 at a concrete state away from the top. -/
theorem c7_chord_gg_witness :
    (handleViewerKey 50 3 20 Key.g (handleViewerKey 50 3 20 Key.g
      ⟨ViewMode.json, 17, 9, 0, 0, [], false⟩)).cursorLine = 0 ∧
    handleViewerKey 50 3 20 Key.other (handleViewerKey 50 3 20 Key.g
      ⟨ViewMode.json, 17, 9, 2, 1, [], false⟩) =
      ⟨ViewMode.json, 17, 9, 2, 1, [], false⟩ := by
  constructor
  · exact ((c7_chord_gg 50 3 20).1 ⟨ViewMode.json, 17, 9, 0, 0, [], false⟩ rfl).1
  · have := (c7_chord_gg 50 3 20).2.2 ⟨ViewMode.json, 17, 9, 2, 1, [], false⟩ rfl
    rw [this]

/-- C8: the search overlay is an exact no-op when the query is empty or has
no case-insensitive match in the visible text of any line, returning the
input byte-for-byte unchanged rather than failing. -/
theorem c8_search_noop (L q : List Char) :
    HighlightSearch L [] = L ∧
    (q ≠ [] →
      (∀ l ∈ splitNL L, findMatches ((extractVisibleText l).map Char.toLower)
        (q.map Char.toLower) 0 = []) →
      HighlightSearch L q = L) := by
  constructor
  · rw [HighlightSearch]
    simp
  · intro hq hm
    rw [HighlightSearch, if_neg hq]
    dsimp only
    have hid : ∀ l ∈ splitNL L, highlightSearchInLine l (q.map Char.toLower) = l := by
      intro l hl
      rw [highlightSearchInLine]
      rw [if_neg (by simpa using hq)]
      dsimp only
      rw [hm l hl]
      simp
    rw [List.map_congr_left hid]
    rw [List.map_id']
    exact joinNL_splitNL L

/-- Witness for C8 at a concrete line and non-matching query. -/
theorem c8_search_noop_witness :
    ("xyz".toList ≠ []) ∧
    HighlightSearch "Hello world".toList "xyz".toList = "Hello world".toList := by
  refine ⟨by decide, (c8_search_noop "Hello world".toList "xyz".toList).2 (by decide) ?_⟩
  intro l hl
  simp [splitNL] at hl
  subst hl
  simp [extractVisibleText, getAnsiSequence, findMatches, goIndex, List.isPrefixOf,
    Char.toLower]

theorem warn_not_in_renderBlock (b : ContentBlock) (w : Int)
    (h1 : warnGlyph ∉ b.content) (h2 : warnGlyph ∉ b.name) :
    warnGlyph ∉ renderBlock b w := by
  have ha : ('⚠' : Char) ∉ thinkingCode := by decide
  have hb : ('⚠' : Char) ∉ toolUseHeaderCode := by decide
  have hcr : ('⚠' : Char) ∉ toolResultHeaderCode := by decide
  have hd : ('⚠' : Char) ∉ resetSeq := by decide
  have he : ('⚠' : Char) ∉ "💭 Thinking:\n".toList := by decide
  have hf : ('⚠' : Char) ∉ "🔧 ".toList := by decide
  have hg : ('⚠' : Char) ∉ "📤 Result".toList := by decide
  have h1b : ('⚠' : Char) ∉ b.content := h1
  have h2b : ('⚠' : Char) ∉ b.name := h2
  intro hc
  rw [renderBlock] at hc
  split_ifs at hc <;>
    simp [warnGlyph, styleRender, renderMarkdown, wordwrapString, List.mem_append,
      List.mem_cons, h1b, h2b, ha, hb, hcr, hd, he, hf, hg] at hc

theorem warn_not_in_renderContent (m : Message) (w : Int)
    (hblocks : ∀ b ∈ m.content, warnGlyph ∉ b.content ∧ warnGlyph ∉ b.name) :
    warnGlyph ∉ renderContent m w := by
  intro hc
  rw [renderContent] at hc
  rcases mem_joinParts _ _ hc with ⟨p, hp, hcp⟩ | hnl
  · obtain ⟨hp1, hp2⟩ := List.mem_filter.mp hp
    obtain ⟨b, hb, hpb⟩ := List.mem_map.mp hp1
    have := warn_not_in_renderBlock b w (hblocks b hb).1 (hblocks b hb).2
    rw [hpb] at this
    exact this hcp
  · exact absurd hnl (by decide)

/-- C9: rendering never fails on any message — a message of kind assistant
renders with a badge containing "assistant" and no warning glyph appears in
its output (when the message fields themselves carry none), while a message
whose kind lies outside the recognized set renders with the generic unknown
badge plus a visible warning glyph appended. -/
theorem c9_render_badge_warning :
    (∀ (m : Message), m.type = "assistant".toList →
      containsSub (renderBadge m) "assistant".toList = true) ∧
    (∀ (m : Message) (w : Int), m.type = "assistant".toList →
      warnGlyph ∉ m.subtype →
      (∀ b ∈ m.content, warnGlyph ∉ b.content ∧ warnGlyph ∉ b.name) →
      containsSub (Render m w) [warnGlyph] = false) ∧
    (∀ (m : Message) (w : Int), implementedTypes m.type = false →
      containsSub (Render m w) [warnGlyph] = true ∧
      renderBadge m = badgeRender unknownBadgeCode
        (if m.subtype ≠ [] then m.type ++ " (".toList ++ m.subtype ++ ")".toList
         else m.type)) := by
  refine ⟨?_, ?_, ?_⟩
  · intro m hty
    rw [renderBadge]
    rw [hty]
    rw [if_neg (by decide), if_pos rfl, badgeRender]
    apply containsSub_append_left
    apply containsSub_cons
    apply containsSub_here
    apply List.isPrefixOf_iff_prefix.mpr
    split
    · rw [List.append_assoc, List.append_assoc]
      exact List.prefix_append _ _
    · exact List.prefix_append _ _
  · intro m w hty hsub hblocks
    have hmem : warnGlyph ∉ Render m w := by
      rw [Render]
      rw [if_pos (by rw [hty]; decide)]
      have hbadge : warnGlyph ∉ renderBadge m := by
        rw [renderBadge]
        rw [hty]
        rw [if_neg (by decide), if_pos rfl, badgeRender]
        intro hc
        have hcode : warnGlyph ∉ assistantBadgeCode := by decide
        have hrs : warnGlyph ∉ resetSeq := by decide
        simp only [List.mem_append, List.mem_cons] at hc
        rcases hc with hc | hc | hc
        · exact hcode hc
        · exact absurd hc (by decide)
        · rcases hc with hc | hc
          · revert hc
            split
            · intro hc
              simp only [List.mem_append] at hc
              rcases hc with (hc | hc) | hc
              · exact absurd hc (by decide)
              · exact hsub hc
              · exact absurd hc (by decide)
            · intro hc
              exact absurd hc (by decide)
          · rcases hc with hc | hc
            · exact absurd hc (by decide)
            · exact hrs hc
      have hcontent : warnGlyph ∉
          (if m.isMeta then
            styleRender metaCode (renderContent m (if w - 4 < 20 then 20 else w - 4))
          else renderContent m (if w - 4 < 20 then 20 else w - 4)) := by
        have hrc := warn_not_in_renderContent m (if w - 4 < 20 then 20 else w - 4) hblocks
        split
        · intro hc
          simp only [styleRender, List.mem_append] at hc
          rcases hc with (hc | hc) | hc
          · exact absurd hc (by decide)
          · exact hrc hc
          · exact absurd hc (by decide)
        · exact hrc
      intro hc
      simp only [List.mem_append, List.mem_cons, List.append_nil] at hc
      rcases hc with hc | hc | hc
      · exact hbadge hc
      · exact absurd hc (by decide)
      · exact hcontent hc
    cases hcs : containsSub (Render m w) [warnGlyph]
    · rfl
    · exact absurd ((containsSub_single_iff _ _).mp hcs) hmem
  · intro m w himp
    have h4 : m.type ≠ "user".toList ∧ m.type ≠ "assistant".toList ∧
        m.type ≠ "system".toList ∧ m.type ≠ "summary".toList := by
      rw [implementedTypes] at himp
      simp only [Bool.or_eq_false_iff, beq_eq_false_iff_ne, ne_eq] at himp
      exact ⟨himp.1.1.1, himp.1.1.2, himp.1.2, himp.2⟩
    constructor
    · rw [Render]
      rw [if_neg (by simp [himp])]
      apply (containsSub_single_iff _ _).mpr
      simp [styleRender, List.mem_append, List.mem_cons]
    · rw [renderBadge]
      rw [if_neg h4.1, if_neg h4.2.1, if_neg h4.2.2.1, if_neg h4.2.2.2]

/-- Witness for C9 at concrete assistant and customtool messages. -/
theorem c9_render_badge_warning_witness :
    containsSub (renderBadge ⟨"assistant".toList, [],
      [⟨"text".toList, "hi".toList, []⟩], false⟩) "assistant".toList = true ∧
    containsSub (Render ⟨"assistant".toList, [],
      [⟨"text".toList, "hi".toList, []⟩], false⟩ 80) [warnGlyph] = false ∧
    containsSub (Render ⟨"customtool".toList, [], [], false⟩ 80) [warnGlyph] = true := by
  refine ⟨c9_render_badge_warning.1 _ rfl, c9_render_badge_warning.2.1 _ 80 rfl
    (by decide) ?_, (c9_render_badge_warning.2.2 _ 80 (by decide)).1⟩
  intro b hb
  simp at hb
  subst hb
  constructor <;> decide

/-- C10: pressing Tab in the viewer toggles between JSON view and Message
view while changing no other state — cursorLine, scrollOffset, messageIndex
and messageScrollOffset are all unchanged, and toggling twice restores the
state exactly, so each mode's position survives a round trip. -/
theorem c10_tab_toggle (lc mc : Nat) (h : Int) :
    ∀ s : NavState,
      (handleViewerKey lc mc h Key.tab s).cursorLine = s.cursorLine ∧
      (handleViewerKey lc mc h Key.tab s).scrollOffset = s.scrollOffset ∧
      (handleViewerKey lc mc h Key.tab s).messageIndex = s.messageIndex ∧
      (handleViewerKey lc mc h Key.tab s).messageScrollOffset = s.messageScrollOffset ∧
      (s.viewMode = ViewMode.json →
        (handleViewerKey lc mc h Key.tab s).viewMode = ViewMode.message) ∧
      (s.viewMode = ViewMode.message →
        (handleViewerKey lc mc h Key.tab s).viewMode = ViewMode.json) ∧
      handleViewerKey lc mc h Key.tab (handleViewerKey lc mc h Key.tab s) = s := by
  intro s
  obtain ⟨vm, cl, so, mi, ms, nb, lg⟩ := s
  cases vm <;> simp [handleViewerKey]

/-- Witness for C10 at a concrete message-mode state. -/
theorem c10_tab_toggle_witness :
    handleViewerKey 50 3 20 Key.tab (handleViewerKey 50 3 20 Key.tab
      ⟨ViewMode.message, 3, 1, 2, 5, [], false⟩) =
      ⟨ViewMode.message, 3, 1, 2, 5, [], false⟩ ∧
    (handleViewerKey 50 3 20 Key.tab
      ⟨ViewMode.message, 3, 1, 2, 5, [], false⟩).viewMode = ViewMode.json :=
  ⟨(c10_tab_toggle 50 3 20 _).2.2.2.2.2.2,
   (c10_tab_toggle 50 3 20 _).2.2.2.2.2.1 rfl⟩

end CHR
